import Mathlib

/-!
# dhcpcd-gtk `main.c`: scan processing, watch registry, notifier, retry logic

A shallow embedding of the parts of `src/dhcpcd-gtk/main.c` that the
specification talks about.

* A C linked list (`DHCPCD_WI_SCAN *`, `struct watch *`) is a Lean `List`
  of the nodes reachable from its head, in link order; unlinking a node is
  dropping it from the list.
* A C string is a Lean `String`, every `Char` standing for one byte; the
  strings meant are NUL-free, but no theorem below needs that assumption.
* A `while` loop is a recursive function on a `fuel` counter that returns
  `none` when the counter runs out, so "the code returns" is a statement
  (`= some _`) that has to be proved; the caller passes a bound on the
  number of iterations (the length of the list walked, plus one).  The `for`
  loop of `listsort` is bounded by `insize` in the source and needs no fuel.
* C `int` counters (`insize`, `psize`, `qsize`, `nmerges`) are `Nat`.
  `insize` is doubled only after a pass with more than one merge, that is
  when `2 * insize` is still below the number of nodes (`mergePass_spec`),
  so the counters stay at or below the length of the list.
* Calls into GLib, libnotify and libdhcpcd are inputs: each call of a
  modelled function takes a record of what those calls return.
-/

namespace DhcpcdGtk

/-! ## C library functions used by the source -/

/-- `tolower` of the C locale on a byte value. -/
def tolower (c : Nat) : Nat :=
  if 65 ≤ c ∧ c ≤ 90 then c + 32 else c

/-- The comparison loop of `strcasecmp` on the bytes of two C strings: fetch
`c1 = tolower(*p1++)`, `c2 = tolower(*p2++)`, stop when `c1` is NUL or
`c1 != c2`, return `c1 - c2`.  The end of a list is the terminating NUL.
(The order lemmas below never look inside `tolower`, so they hold for the
case table of any locale.) -/
def strcasecmpBytes : List Char → List Char → Int
  | [], [] => 0
  | [], b :: _ => 0 - (tolower b.toNat : Int)
  | a :: _, [] => (tolower a.toNat : Int) - 0
  | a :: p1, b :: p2 =>
    if tolower a.toNat ≠ 0 ∧ tolower a.toNat = tolower b.toNat then
      strcasecmpBytes p1 p2
    else
      (tolower a.toNat : Int) - (tolower b.toNat : Int)

/-- `strcasecmp(s1, s2)`. -/
def strcasecmp (s1 s2 : String) : Int :=
  strcasecmpBytes s1.data s2.data

/-- `strlen(s)`. -/
def strlen (s : String) : Nat :=
  s.length

/-- `g_strcmp0(a, b)` on non-NULL strings: zero exactly when the two strings
are equal, otherwise the sign of their order. -/
def g_strcmp0 (a b : String) : Int :=
  if a = b then 0 else if a.data < b.data then -1 else 1

/-! ## Scan records (`DHCPCD_WI_SCAN`) -/

/-- The fields of `DHCPCD_WI_SCAN` that `main.c` reads; `strength` is
`strength.value`.  The `next` link is the position in the list. -/
structure DHCPCD_WI_SCAN where
  ssid : String
  bssid : String
  strength : Int
deriving DecidableEq, Repr

/-! ## `process_scans`, filter and dedup pass (main.c 601–671) -/

/-- The inner `while (sc2)` loop for a fixed `sc`, run over the nodes after
`sc`.  Returns whether `sc` gets deleted (the `goto jump` branch) and the
list of nodes that then follow `sc`'s place.

* same ssid and `sc->strength.value < sc2->strength.value`: `sc` is deleted,
  nothing from `sc2` on is touched;
* same ssid otherwise: `sc2` is unlinked;
* different ssid: `sc2` stays, the walk goes on. -/
def scanInner (sc : DHCPCD_WI_SCAN) : List DHCPCD_WI_SCAN → Bool × List DHCPCD_WI_SCAN
  | [] => (false, [])
  | sc2 :: rest =>
    if g_strcmp0 sc.ssid sc2.ssid = 0 then
      if sc.strength < sc2.strength then
        (true, sc2 :: rest)
      else
        scanInner sc rest
    else
      ((scanInner sc rest).1, sc2 :: (scanInner sc rest).2)

/-- The outer `while (sc)` loop, from the node `sc` on; the result is the
list from `sc`'s place when the loop ends (the nodes before `sc` are final
and stay linked in front). -/
def processLoop : Nat → List DHCPCD_WI_SCAN → Option (List DHCPCD_WI_SCAN)
  | 0, _ => none
  | _ + 1, [] => some []
  | fuel + 1, sc :: rest =>
    if strlen sc.ssid = 0 then
      processLoop fuel rest
    else if (scanInner sc rest).1 then
      processLoop fuel (scanInner sc rest).2
    else
      (processLoop fuel (scanInner sc rest).2).map (fun l => sc :: l)

/-! ## `listsort` (main.c 525–599) -/

/-- The stepping loop `for (i = 0; i < insize; i++) { psize++; q = q->next;
if (!q) break; }`, with `n` iterations left; returns `(psize, q)`. -/
def stepAlong : Nat → List DHCPCD_WI_SCAN → Nat → Nat × List DHCPCD_WI_SCAN
  | 0, q, psize => (psize, q)
  | n + 1, q, psize =>
    match q.tail with
    | [] => (psize + 1, [])
    | e :: q2 => stepAlong n (e :: q2) (psize + 1)

/-- The merge loop `while (psize > 0 || (qsize > 0 && q))`.  `p` and `q` are
the lists from the two cursors.  Returns the nodes appended to the output,
in order, and the final `q`. -/
def mergeLoop : Nat → List DHCPCD_WI_SCAN → Nat → List DHCPCD_WI_SCAN → Nat →
    Option (List DHCPCD_WI_SCAN × List DHCPCD_WI_SCAN)
  | 0, _, _, _, _ => none
  | fuel + 1, p, psize, q, qsize =>
    if psize > 0 ∨ (qsize > 0 ∧ q ≠ []) then
      if psize = 0 then
        match q with
        | [] => none
        | e :: q2 =>
          (mergeLoop fuel p psize q2 (qsize - 1)).map (fun r => (e :: r.1, r.2))
      else if qsize = 0 ∨ q = [] then
        match p with
        | [] => none
        | e :: p2 =>
          (mergeLoop fuel p2 (psize - 1) q qsize).map (fun r => (e :: r.1, r.2))
      else
        match p, q with
        | e1 :: p2, e2 :: q2 =>
          if strcasecmp e1.ssid e2.ssid ≤ 0 then
            (mergeLoop fuel p2 (psize - 1) (e2 :: q2) qsize).map (fun r => (e1 :: r.1, r.2))
          else
            (mergeLoop fuel (e1 :: p2) psize q2 (qsize - 1)).map (fun r => (e2 :: r.1, r.2))
        | _, _ => none
    else
      some ([], q)

/-- One pass, the loop `while (p)`: returns the merged list of this pass and
`nmerges`. -/
def mergePass (insize : Nat) : Nat → List DHCPCD_WI_SCAN → Option (List DHCPCD_WI_SCAN × Nat)
  | 0, _ => none
  | _ + 1, [] => some ([], 0)
  | fuel + 1, e :: p2 =>
    let s := stepAlong insize (e :: p2) 0
    match mergeLoop (s.1 + insize + 1) (e :: p2) s.1 s.2 insize with
    | none => none
    | some m =>
      (mergePass insize fuel m.2).map (fun r => (m.1 ++ r.1, r.2 + 1))

/-- The loop `while (1)` over passes, `insize` doubling. -/
def listsortLoop : Nat → Nat → List DHCPCD_WI_SCAN → Option (List DHCPCD_WI_SCAN)
  | 0, _, _ => none
  | fuel + 1, insize, list =>
    match mergePass insize (list.length + 1) list with
    | none => none
    | some r =>
      if r.2 ≤ 1 then some r.1
      else listsortLoop fuel (insize * 2) r.1

/-- `listsort(list)`. -/
def listsort (list : List DHCPCD_WI_SCAN) : Option (List DHCPCD_WI_SCAN) :=
  match list with
  | [] => some []
  | _ :: _ => listsortLoop (list.length + 1) 1 list

/-- `process_scans(scans)`: the filter and dedup loop, then `listsort (head)`. -/
def process_scans (scans : List DHCPCD_WI_SCAN) : Option (List DHCPCD_WI_SCAN) :=
  (processLoop (scans.length + 1) scans).bind listsort

/-! ## Watch registry (main.c 50–57, 235–318) -/

/-- A node of the `watches` list (`struct watch`); pointers are numbers. -/
structure watch where
  ref : Nat
  fd : Int
  eventid : Nat
  gio : Nat
deriving DecidableEq, Repr

/-- What the GLib calls of one `dhcpcd_watch` call return:
`g_io_channel_unix_new` (`none` is NULL), `g_io_add_watch` (`0` is failure)
and whether `g_try_malloc` succeeds. -/
structure WatchEnv where
  gio : Option Nat
  eventid : Nat
  alloc : Bool
deriving DecidableEq, Repr

/-- `dhcpcd_findwatch(fd, data, &last)` over the list from `w`: walks to the
first node with `w->fd == fd || w->ref == data`.  Returns the nodes walked
over (the last of them is `*last`, none of them means `*last == NULL`) and,
when a node matched, that node with the list after it. -/
def dhcpcd_findwatch (fd : Int) (data : Nat) :
    List watch → List watch × Option (watch × List watch)
  | [] => ([], none)
  | w :: next =>
    if w.fd = fd ∨ w.ref = data then
      ([], some (w, next))
    else
      (w :: (dhcpcd_findwatch fd data next).1, (dhcpcd_findwatch fd data next).2)

/-- `dhcpcd_unwatch(fd, data)`: the new `watches` list.  A found node is
unlinked (`l->next = w->next`, or `watches = w->next` at the head). -/
def dhcpcd_unwatch (watches : List watch) (fd : Int) (data : Nat) : List watch :=
  match dhcpcd_findwatch fd data watches with
  | (l, some (_, next)) => l ++ next
  | (_, none) => watches

/-- `dhcpcd_watch(fd, cb, data)`: the return value and the new `watches`
list.  The callback `cb` only goes to `g_io_add_watch` and is left out. -/
def dhcpcd_watch (env : WatchEnv) (watches : List watch) (fd : Int) (data : Nat) :
    Bool × List watch :=
  let found := dhcpcd_findwatch fd data watches
  let sane : Option (List watch) :=
    match found with
    | (l, some (w, next)) => if w.fd = fd then none else some (l ++ next)
    | (_, none) => some watches
  match sane with
  | none => (true, watches)
  | some watches1 =>
    match env.gio with
    | none => (false, watches1)
    | some gio =>
      if env.eventid = 0 then (false, watches1)
      else if env.alloc = false then (false, watches1)
      else (true, { ref := data, fd := fd, eventid := env.eventid, gio := gio } :: watches1)

/-- The registry invariant of the specification: at most one entry per `fd`
and at most one entry per owner reference. -/
def WatchesUnique (watches : List watch) : Prop :=
  (watches.map (fun w => w.fd)).Nodup ∧ (watches.map (fun w => w.ref)).Nodup

/-- One call on the registry. -/
inductive WatchOp where
  | watch (env : WatchEnv) (fd : Int) (data : Nat)
  | unwatch (fd : Int) (data : Nat)
deriving DecidableEq, Repr

/-- The registry after one call. -/
def applyWatchOp (watches : List watch) : WatchOp → List watch
  | WatchOp.watch env fd data => (dhcpcd_watch env watches fd data).2
  | WatchOp.unwatch fd data => dhcpcd_unwatch watches fd data

/-- The registry after a sequence of calls, first call first. -/
def runWatchOps (watches : List watch) (ops : List WatchOp) : List watch :=
  ops.foldl applyWatchOp watches

/-! ## Notifier (main.c 189–230, built with `NOTIFY`) -/

/-- `strcmp(a, b)`: zero exactly when the two strings are equal. -/
def strcmp (a b : String) : Int :=
  if a = b then 0 else if a.data < b.data then -1 else 1

/-- A `NotifyNotification` object: what it was created from. -/
structure NotifyNotification where
  title : String
  msg : String
  icon : String
deriving DecidableEq, Repr

/-- A call into libnotify that the user can observe. -/
inductive NotifyEvent where
  | close (n : NotifyNotification)
  | shown (n : NotifyNotification)
deriving DecidableEq, Repr

/-- The statics `notify_last_msg` and `nn`, and the libnotify calls made so
far, oldest first. -/
structure NotifyState where
  notify_last_msg : Option String
  nn : Option NotifyNotification
  log : List NotifyEvent
deriving DecidableEq, Repr

/-- `notify(title, msg, icon)`; `msg = none` is the NULL pointer. -/
def notify (s : NotifyState) (title : String) (msg : Option String) (icon : String) :
    NotifyState :=
  match msg with
  | none => s
  | some m =>
    let spam : Bool :=
      match s.notify_last_msg with
      | some last => decide (strcmp m last = 0)
      | none => false
    if spam then s
    else
      let closed : List NotifyEvent :=
        match s.nn with
        | some old => [NotifyEvent.close old]
        | none => []
      let n : NotifyNotification := { title := title, msg := m, icon := icon }
      { notify_last_msg := some m, nn := some n,
        log := s.log ++ closed ++ [NotifyEvent.shown n] }

/-- `notify_closed()`, the handler of the "closed" signal. -/
def notify_closed (s : NotifyState) : NotifyState :=
  { s with nn := none }

/-- The state at program start. -/
def NotifyState.init : NotifyState :=
  { notify_last_msg := none, nn := none, log := [] }

/-- Something that happens to the notifier: a `notify` call with a non-NULL
text, or the "closed" signal. -/
inductive NotifyStep where
  | call (title msg icon : String)
  | closed
deriving DecidableEq, Repr

/-- The notifier after one step. -/
def applyNotifyStep (s : NotifyState) : NotifyStep → NotifyState
  | NotifyStep.call title msg icon => notify s title (some msg) icon
  | NotifyStep.closed => notify_closed s

/-- The notifier after a sequence of steps from program start. -/
def runNotify (steps : List NotifyStep) : NotifyState :=
  steps.foldl applyNotifyStep NotifyState.init

/-- Reading one more event of a log: a shown notification replaces the text
remembered so far. -/
def lastShownStep (acc : Option String) : NotifyEvent → Option String
  | NotifyEvent.shown n => some n.msg
  | NotifyEvent.close _ => acc

/-- The text of the most recently shown notification in a log. -/
def lastShown (log : List NotifyEvent) : Option String :=
  log.foldl lastShownStep none

/-! ## Scan diff of `dhcpcd_wpa_scan_cb` (main.c 720–744) -/

/-- The loop `for (s2 = w->scans; s2; s2 = s2->next)` that breaks at the
first node with `g_strcmp0(s1->bssid, s2->bssid) == 0`: the final `s2`. -/
def findBssid (s1 : DHCPCD_WI_SCAN) : List DHCPCD_WI_SCAN → Option DHCPCD_WI_SCAN
  | [] => none
  | s2 :: next =>
    if g_strcmp0 s1.bssid s2.bssid = 0 then some s2 else findBssid s1 next

/-- The loop `for (s1 = scans; s1; s1 = s1->next)` on the variables
`(msg, txt)`; `txt = none` is the NULL pointer. -/
def scanDiffLoop (wscans : List DHCPCD_WI_SCAN) :
    List DHCPCD_WI_SCAN → String × Option String → String × Option String
  | [], acc => acc
  | s1 :: next, (msg, txt) =>
    match findBssid s1 wscans with
    | some _ => scanDiffLoop wscans next (msg, txt)
    | none =>
      match txt with
      | none => scanDiffLoop wscans next (msg, some s1.ssid)
      | some t => scanDiffLoop wscans next ("New Access Points", some (t ++ "\n" ++ s1.ssid))

/-- The `else` branch of `dhcpcd_wpa_scan_cb` (the interface already has a
scan set `w->scans`): the `notify` calls it makes, as `(title, text, icon)`. -/
def scanDiffNotify (scans wscans : List DHCPCD_WI_SCAN) : List (String × String × String) :=
  match scanDiffLoop wscans scans ("New Access Point", none) with
  | (msg, some txt) => [(msg, txt, "network-wireless")]
  | (_, none) => []

/-- The records of `scans` whose bssid is the bssid of no record of `wscans`,
in the order of `scans`. -/
def newRecords (scans wscans : List DHCPCD_WI_SCAN) : List DHCPCD_WI_SCAN :=
  scans.filter (fun s1 => wscans.all (fun s2 => decide (s1.bssid ≠ s2.bssid)))

/-! ## Opening the primary connection (main.c 383–414, 821–822) -/

/-- `EACCES` of `<errno.h>`. -/
def EACCES : Int := 13

/-- `EPERM` of `<errno.h>`. -/
def EPERM : Int := 1

/-- What a `dhcpcd_open` call returns (`-1` is failure) and the `errno` it
leaves. -/
structure OpenResult where
  fd : Int
  errno : Int
deriving DecidableEq, Repr

/-- What the outside world does during one `dhcpcd_try_open` call: the
privileged open, the unprivileged open (only consulted when it is called)
and the GLib calls of `dhcpcd_watch`. -/
structure TryOpenEnv where
  priv : OpenResult
  unpriv : OpenResult
  watchEnv : WatchEnv
deriving DecidableEq, Repr

/-- The states of the lifecycle controller in the specification. -/
inductive Phase where
  | CLOSED
  | OPENING
  | WATCHING
deriving DecidableEq, Repr

/-- A GLib timeout source made by `g_timeout_add (interval, dhcpcd_try_open, data)`. -/
structure Timer where
  interval : Nat
  data : Nat
deriving DecidableEq, Repr

/-- The state `dhcpcd_try_open` works on: the `watches` list, its static
`last_error`, the errors logged with `g_critical`, the numbers of
`dhcpcd_close` and `dhcpcd_wpa_start` calls, the live timeout sources with the
number of `g_timeout_add` calls, and the phases the controller went through
(not a variable of the source: `OPENING` is entered when `dhcpcd_try_open`
starts, `WATCHING` when it returns FALSE, `CLOSED` when it returns TRUE). -/
structure Controller where
  watches : List watch
  last_error : Int
  criticals : List Int
  closes : Nat
  wpa_starts : Nat
  timers : List Timer
  armed : Nat
  phases : List Phase
deriving DecidableEq, Repr

/-- The controller at program start, before the first open. -/
def Controller.init : Controller :=
  { watches := [], last_error := 0, criticals := [], closes := 0, wpa_starts := 0,
    timers := [], armed := 0, phases := [Phase.CLOSED] }

/-- The failure exit of `dhcpcd_try_open`: log `errno` when it differs from
`last_error`, return TRUE. -/
def tryOpenFail (s : Controller) (errno : Int) : Bool × Controller :=
  if errno ≠ s.last_error then
    (true, { s with criticals := s.criticals ++ [errno], last_error := errno,
                    phases := s.phases ++ [Phase.CLOSED] })
  else
    (true, { s with phases := s.phases ++ [Phase.CLOSED] })

/-- The code of `dhcpcd_try_open` from the label `unprived` on. -/
def tryOpenWatch (env : TryOpenEnv) (s : Controller) (con : Nat) (fd : Int) :
    Bool × Controller :=
  let r := dhcpcd_watch env.watchEnv s.watches fd con
  if r.1 = false then
    (true, { s with watches := r.2, closes := s.closes + 1,
                    phases := s.phases ++ [Phase.CLOSED] })
  else
    (false, { s with watches := r.2, wpa_starts := s.wpa_starts + 1,
                     phases := s.phases ++ [Phase.WATCHING] })

/-- `dhcpcd_try_open(data)`: the return value and the new state. -/
def dhcpcd_try_open (env : TryOpenEnv) (s0 : Controller) (con : Nat) : Bool × Controller :=
  let s : Controller := { s0 with phases := s0.phases ++ [Phase.OPENING] }
  if env.priv.fd = -1 then
    if env.priv.errno = EACCES ∨ env.priv.errno = EPERM then
      if env.unpriv.fd ≠ -1 then
        tryOpenWatch env s con env.unpriv.fd
      else
        tryOpenFail s env.unpriv.errno
    else
      tryOpenFail s env.priv.errno
  else
    tryOpenWatch env s con env.priv.fd

/-- The start-up lines of `main`:
`if (dhcpcd_try_open(con)) g_timeout_add(DHCPCD_RETRYOPEN, dhcpcd_try_open, con);`. -/
def mainOpen (DHCPCD_RETRYOPEN : Nat) (env : TryOpenEnv) (s : Controller) (con : Nat) :
    Controller :=
  let r := dhcpcd_try_open env s con
  if r.1 then
    { r.2 with timers := r.2.timers ++ [{ interval := DHCPCD_RETRYOPEN, data := con }],
               armed := r.2.armed + 1 }
  else r.2

/-- GLib dispatching the oldest live timeout source: it calls
`dhcpcd_try_open (data)` and destroys the source when that returns FALSE. -/
def timerFire (env : TryOpenEnv) (s : Controller) : Controller :=
  match s.timers with
  | [] => s
  | t :: rest =>
    let r := dhcpcd_try_open env s t.data
    if r.1 then r.2 else { r.2 with timers := rest }

/-- The descriptor an open attempt yields, in the words of the
specification: the privileged open's, or, after a privileged failure with
`EACCES` or `EPERM`, the unprivileged open's; `none` when the attempt fails. -/
def openedDescriptor (env : TryOpenEnv) : Option Int :=
  if env.priv.fd ≠ -1 then some env.priv.fd
  else if (env.priv.errno = EACCES ∨ env.priv.errno = EPERM) ∧ env.unpriv.fd ≠ -1 then
    some env.unpriv.fd
  else none

/-- The GLib calls of a `dhcpcd_watch` call all succeed, the channel being `gio`. -/
def WatchEnv.Succeeds (env : WatchEnv) (gio : Nat) : Prop :=
  env.gio = some gio ∧ env.eventid ≠ 0 ∧ env.alloc = true

/-! ## Predicates used to state the properties -/

/-- The order test of the merge: `strcasecmp(a->ssid, b->ssid) <= 0`. -/
def ssidLe (a b : DHCPCD_WI_SCAN) : Bool :=
  decide (strcasecmp a.ssid b.ssid ≤ 0)

/-- Sorted ascending by case-insensitive ssid: every adjacent pair `(a, b)`
has `strcasecmp(a.ssid, b.ssid) <= 0`. -/
def SortedBySsid (l : List DHCPCD_WI_SCAN) : Prop :=
  List.Chain' (fun a b => strcasecmp a.ssid b.ssid ≤ 0) l

/-- Every aligned block of `k` nodes of the list is sorted (the last block
may be shorter): what a pass of `listsort` with `insize = k` starts from. -/
inductive Runs (k : Nat) : List DHCPCD_WI_SCAN → Prop
  | last (l : List DHCPCD_WI_SCAN) : l.length ≤ k → l.Pairwise (fun a b => ssidLe a b = true) →
      Runs k l
  | block (a b : List DHCPCD_WI_SCAN) : a.length = k →
      a.Pairwise (fun a b => ssidLe a b = true) → Runs k b → Runs k (a ++ b)

/-- The list `l2` is the list `l1` with some nodes unlinked, each of them
satisfying `P`; the other nodes keep their order. -/
inductive Unlinked (P : DHCPCD_WI_SCAN → Prop) :
    List DHCPCD_WI_SCAN → List DHCPCD_WI_SCAN → Prop
  | done : Unlinked P [] []
  | keep (a : DHCPCD_WI_SCAN) (l1 l2 : List DHCPCD_WI_SCAN) :
      Unlinked P l1 l2 → Unlinked P (a :: l1) (a :: l2)
  | unlink (a : DHCPCD_WI_SCAN) (l1 l2 : List DHCPCD_WI_SCAN) :
      P a → Unlinked P l1 l2 → Unlinked P (a :: l1) l2

/-- The record `r` is the first record of `L`, in list order, whose strength is
maximal among the records of `L` with ssid `s`: `r` stands at a place of `L`,
has ssid `s`, every record with ssid `s` before that place is strictly weaker
and every record with ssid `s` after it is at most as strong. -/
def FirstStrongest (s : String) (L : List DHCPCD_WI_SCAN) (r : DHCPCD_WI_SCAN) : Prop :=
  ∃ pre post, L = pre ++ r :: post ∧ r.ssid = s ∧
    (∀ x ∈ pre, x.ssid = s → x.strength < r.strength) ∧
    (∀ x ∈ post, x.ssid = s → x.strength ≤ r.strength)

/-! ## `strcasecmp` is a total preorder -/

theorem strcasecmpBytes_swap (a b : List Char) :
    strcasecmpBytes b a = - strcasecmpBytes a b := by
  induction a generalizing b with
  | nil => cases b <;> simp [strcasecmpBytes]
  | cons x p1 ih =>
    cases b with
    | nil => simp [strcasecmpBytes]
    | cons y p2 =>
      simp only [strcasecmpBytes]
      split_ifs with h1 h2 h2
      · exact ih p2
      · exact absurd ⟨by omega, h1.2.symm⟩ h2
      · exact absurd ⟨by omega, h2.2.symm⟩ h1
      · omega

theorem strcasecmpBytes_trans (a b c : List Char)
    (hab : strcasecmpBytes a b ≤ 0) (hbc : strcasecmpBytes b c ≤ 0) :
    strcasecmpBytes a c ≤ 0 := by
  induction a generalizing b c with
  | nil => cases c <;> simp [strcasecmpBytes]
  | cons x p1 ih =>
    cases b with
    | nil =>
      cases c with
      | nil => simpa [strcasecmpBytes] using hab
      | cons z p3 =>
        simp only [strcasecmpBytes] at hab ⊢
        split_ifs with h
        · omega
        · omega
    | cons y p2 =>
      cases c with
      | nil =>
        simp only [strcasecmpBytes] at hab hbc ⊢
        split_ifs at hab with h
        · omega
        · omega
      | cons z p3 =>
        simp only [strcasecmpBytes] at hab hbc ⊢
        split_ifs at hab hbc ⊢ with h1 h2 h3 h3 h2 h3 h3
        · exact ih p2 p3 hab hbc
        all_goals omega

theorem ssidLe_iff (a b : DHCPCD_WI_SCAN) :
    ssidLe a b = true ↔ strcasecmp a.ssid b.ssid ≤ 0 := by
  simp [ssidLe]

theorem ssidLe_trans (a b c : DHCPCD_WI_SCAN) (hab : ssidLe a b = true)
    (hbc : ssidLe b c = true) : ssidLe a c = true := by
  rw [ssidLe_iff] at *
  exact strcasecmpBytes_trans _ _ _ hab hbc

theorem ssidLe_total (a b : DHCPCD_WI_SCAN) : (ssidLe a b || ssidLe b a) = true := by
  rw [Bool.or_eq_true, ssidLe_iff, ssidLe_iff]
  unfold strcasecmp
  rw [strcasecmpBytes_swap a.ssid.data b.ssid.data]
  omega

/-! ## The loops of `listsort` in terms of `take`, `drop` and `List.merge` -/

theorem stepAlong_eq (n : Nat) (e : DHCPCD_WI_SCAN) (q : List DHCPCD_WI_SCAN) (psize : Nat) :
    stepAlong n (e :: q) psize = (psize + min n (q.length + 1), (e :: q).drop n) := by
  induction n generalizing e q psize with
  | zero => simp [stepAlong]
  | succ n ih =>
    cases q with
    | nil => simp [stepAlong]
    | cons e2 q2 =>
      simp only [stepAlong, List.tail_cons, ih, List.drop_succ_cons, List.length_cons]
      congr 1
      omega

theorem mergeLoop_eq (fuel : Nat) (p : List DHCPCD_WI_SCAN) (psize : Nat)
    (q : List DHCPCD_WI_SCAN) (qsize : Nat) (hf : psize + qsize < fuel)
    (hp : psize ≤ p.length) :
    mergeLoop fuel p psize q qsize
      = some (List.merge (p.take psize) (q.take qsize) ssidLe, q.drop qsize) := by
  induction fuel generalizing p psize q qsize with
  | zero => omega
  | succ fuel ih =>
    unfold mergeLoop
    by_cases hps : psize = 0
    · subst hps
      cases q with
      | nil => simp
      | cons e q2 =>
        cases qsize with
        | zero => simp
        | succ k =>
          simp [ih p 0 q2 k (by omega) (by omega)]
    · cases p with
      | nil => simp at hp; omega
      | cons e1 p2 =>
        obtain ⟨j, rfl⟩ : ∃ j, psize = j + 1 := ⟨psize - 1, by omega⟩
        simp only [List.length_cons] at hp
        by_cases hq : qsize = 0 ∨ q = []
        · have hq2 : q.take qsize = [] := by
            rcases hq with h | h
            · simp [h]
            · simp [h]
          have hq3 : q.drop qsize = q := by
            rcases hq with h | h
            · simp [h]
            · simp [h]
          have := ih p2 j q qsize (by omega) (by omega)
          simp [hq, this, hq2, hq3]
        · have hq1 : qsize ≠ 0 := fun h => hq (Or.inl h)
          have hq2 : q ≠ [] := fun h => hq (Or.inr h)
          obtain ⟨k, rfl⟩ : ∃ k, qsize = k + 1 := ⟨qsize - 1, by omega⟩
          cases q with
          | nil => exact absurd rfl hq2
          | cons e2 q2 =>
            have h1 := ih p2 j (e2 :: q2) (k + 1) (by omega) (by omega)
            have h2 := ih (e1 :: p2) (j + 1) q2 k (by omega) (by simp; omega)
            by_cases hc : strcasecmp e1.ssid e2.ssid ≤ 0
            · have hle : ssidLe e1 e2 = true := (ssidLe_iff e1 e2).2 hc
              simp [hc, h1, List.cons_merge_cons, hle]
            · have hle : ¬ ssidLe e1 e2 = true := fun h => hc ((ssidLe_iff e1 e2).1 h)
              simp [hc, h2, List.cons_merge_cons, hle]

theorem mergePass_cons (insize : Nat) (fuel : Nat) (e : DHCPCD_WI_SCAN)
    (p2 : List DHCPCD_WI_SCAN) :
    mergePass insize (fuel + 1) (e :: p2)
      = (mergePass insize fuel (((e :: p2).drop insize).drop insize)).map
          (fun r => (List.merge ((e :: p2).take insize)
            (((e :: p2).drop insize).take insize) ssidLe ++ r.1, r.2 + 1)) := by
  simp only [mergePass, stepAlong_eq]
  rw [mergeLoop_eq _ _ _ _ _ (by omega) (by simp)]
  simp only [Nat.zero_add]
  rw [List.take_eq_take.2 (by simp : min (min insize (p2.length + 1)) (e :: p2).length
    = min insize (e :: p2).length)]

/-! ## What one pass and the whole of `listsort` compute -/

theorem runs_take_drop (k : Nat) (p : List DHCPCD_WI_SCAN) (h : Runs k p) :
    (p.take k).Pairwise (fun a b => ssidLe a b = true) ∧ Runs k (p.drop k) := by
  cases h with
  | last l hl hs =>
    rw [List.take_of_length_le hl, List.drop_eq_nil_of_le hl]
    exact ⟨hs, Runs.last [] (by simp) List.Pairwise.nil⟩
  | block a b ha hs hb =>
    rw [List.take_left' ha, List.drop_left' ha]
    exact ⟨hs, hb⟩

theorem runs_one (l : List DHCPCD_WI_SCAN) : Runs 1 l := by
  induction l with
  | nil => exact Runs.last [] (by simp) List.Pairwise.nil
  | cons e l ih =>
    have := Runs.block [e] l rfl (List.pairwise_singleton _ _) ih
    simpa using this

theorem merge_sorted (a b : List DHCPCD_WI_SCAN)
    (ha : a.Pairwise (fun a b => ssidLe a b = true))
    (hb : b.Pairwise (fun a b => ssidLe a b = true)) :
    (List.merge a b ssidLe).Pairwise (fun a b => ssidLe a b = true) :=
  List.sorted_merge ssidLe_trans ssidLe_total a b ha hb

theorem mergePass_spec (k : Nat) (hk : 0 < k) (fuel : Nat) (p : List DHCPCD_WI_SCAN)
    (hf : p.length < fuel) (hr : Runs k p) :
    ∃ out m, mergePass k fuel p = some (out, m) ∧ out.Perm p ∧ Runs (2 * k) out ∧
      (m = 0 ↔ p = []) ∧ (m ≤ 1 → out.Pairwise (fun a b => ssidLe a b = true)) ∧
      (1 < m → 2 * k < p.length) := by
  induction fuel generalizing p with
  | zero => omega
  | succ fuel ih =>
    cases p with
    | nil =>
      refine ⟨[], 0, by simp [mergePass], List.Perm.refl _, Runs.last [] (by simp) List.Pairwise.nil,
        by simp, fun _ => List.Pairwise.nil, by omega⟩
    | cons e p2 =>
      obtain ⟨hs1, hr1⟩ := runs_take_drop k _ hr
      obtain ⟨hs2, hr2⟩ := runs_take_drop k _ hr1
      have hlen : (((e :: p2).drop k).drop k).length < fuel := by
        simp only [List.length_drop, List.length_cons] at hf ⊢
        omega
      obtain ⟨out2, m2, he, hperm, hruns, hm0, _, _⟩ := ih _ hlen hr2
      have hms := merge_sorted _ _ hs1 hs2
      have hmp : (List.merge ((e :: p2).take k) (((e :: p2).drop k).take k) ssidLe ++ out2).Perm
          (e :: p2) := by
        have h1 := (@List.merge_perm_append _ ssidLe
          ((e :: p2).take k) (((e :: p2).drop k).take k)).append hperm
        have h2 : (e :: p2).take k ++ ((e :: p2).drop k).take k ++ ((e :: p2).drop k).drop k
            = e :: p2 := by
          rw [List.append_assoc, List.take_append_drop, List.take_append_drop]
        rw [h2] at h1
        exact h1
      refine ⟨_, m2 + 1, by rw [mergePass_cons k, he]; rfl, hmp, ?_, by simp, ?_, ?_⟩
      · by_cases hlong : 2 * k ≤ (e :: p2).length
        · refine Runs.block _ _ ?_ hms hruns
          simp only [List.length_merge, List.length_take, List.length_drop]
          omega
        · have hnil : ((e :: p2).drop k).drop k = [] := by
            apply List.eq_nil_of_length_eq_zero
            simp only [List.length_drop]
            omega
          have : out2 = [] := by
            rw [hnil] at hperm
            exact List.Perm.eq_nil hperm
          subst this
          rw [List.append_nil]
          refine Runs.last _ ?_ hms
          simp only [List.length_merge, List.length_take, List.length_drop]
          omega
      · intro hm
        have hm2 : m2 = 0 := by omega
        have hnil := hm0.1 hm2
        have : out2 = [] := by
          rw [hnil] at hperm
          exact List.Perm.eq_nil hperm
        subst this
        rw [List.append_nil]
        exact hms
      · intro hm
        have hne : ((e :: p2).drop k).drop k ≠ [] := fun h => by
          have := hm0.2 h
          omega
        have := List.length_pos.2 hne
        simp only [List.length_drop] at this
        omega

theorem listsortLoop_spec (fuel k : Nat) (list : List DHCPCD_WI_SCAN) (hk : 0 < k)
    (hfuel : 0 < fuel) (hf : list.length < k + fuel) (hr : Runs k list) :
    ∃ out, listsortLoop fuel k list = some out ∧ out.Perm list ∧
      out.Pairwise (fun a b => ssidLe a b = true) := by
  induction fuel generalizing k list with
  | zero => omega
  | succ fuel ih =>
    obtain ⟨out, m, he, hperm, hruns, _, hsorted, hlong⟩ :=
      mergePass_spec k hk (list.length + 1) list (by omega) hr
    unfold listsortLoop
    rw [he]
    by_cases hm : m ≤ 1
    · exact ⟨out, by simp [hm], hperm, hsorted hm⟩
    · have h2 := hlong (by omega)
      have hlen := hperm.length_eq
      obtain ⟨out2, he2, hperm2, hs2⟩ := ih (k * 2) out (by omega) (by omega) (by omega)
        (by rw [Nat.mul_comm]; exact hruns)
      exact ⟨out2, by simp [hm, he2], hperm2.trans hperm, hs2⟩

/-- `listsort` returns, and what it returns is a permutation of the list that
is sorted by `strcasecmp` of the ssids. -/
theorem listsort_spec (list : List DHCPCD_WI_SCAN) :
    ∃ out, listsort list = some out ∧ out.Perm list ∧
      out.Pairwise (fun a b => ssidLe a b = true) := by
  cases list with
  | nil => exact ⟨[], rfl, List.Perm.refl _, List.Pairwise.nil⟩
  | cons e l =>
    exact listsortLoop_spec _ 1 (e :: l) (by omega) (by omega) (by omega) (runs_one _)

theorem mergePass_of_sorted (k fuel : Nat) (p out : List DHCPCD_WI_SCAN) (m : Nat)
    (hs : p.Pairwise (fun a b => ssidLe a b = true))
    (he : mergePass k fuel p = some (out, m)) : out = p := by
  induction fuel generalizing p out m with
  | zero => simp [mergePass] at he
  | succ fuel ih =>
    cases p with
    | nil =>
      simp only [mergePass, Option.some.injEq, Prod.mk.injEq] at he
      exact he.1.symm
    | cons e p2 =>
      rw [mergePass_cons, Option.map_eq_some'] at he
      obtain ⟨r, hr, hout⟩ := he
      simp only [Prod.mk.injEq] at hout
      have hsplit : (e :: p2).take k ++ (e :: p2).drop k = e :: p2 := List.take_append_drop _ _
      have hs1 := hs
      rw [← hsplit, List.pairwise_append] at hs1
      obtain ⟨_, hsd, hcross⟩ := hs1
      have hsd2 : (((e :: p2).drop k).drop k).Pairwise (fun a b => ssidLe a b = true) :=
        hsd.sublist (List.drop_sublist _ _)
      have hr1 : r.1 = ((e :: p2).drop k).drop k := ih _ r.1 r.2 hsd2 hr
      have hm : List.merge ((e :: p2).take k) (((e :: p2).drop k).take k) ssidLe
          = (e :: p2).take k ++ ((e :: p2).drop k).take k :=
        List.merge_of_le (fun a b ha hb => hcross a ha b (List.mem_of_mem_take hb))
      rw [← hout.1, hm, hr1, List.append_assoc, List.take_append_drop, List.take_append_drop]

theorem listsortLoop_of_sorted (fuel k : Nat) (list out : List DHCPCD_WI_SCAN)
    (hs : list.Pairwise (fun a b => ssidLe a b = true))
    (he : listsortLoop fuel k list = some out) : out = list := by
  induction fuel generalizing k list out with
  | zero => simp [listsortLoop] at he
  | succ fuel ih =>
    unfold listsortLoop at he
    cases hm : mergePass k (list.length + 1) list with
    | none => simp [hm] at he
    | some r =>
      have hr : r.1 = list := mergePass_of_sorted k _ list r.1 r.2 hs hm
      simp only [hm] at he
      split_ifs at he with h
      · simp only [Option.some.injEq] at he
        rw [← he, hr]
      · rw [hr] at he
        exact ih _ _ _ hs he

/-- On a list that is already sorted, `listsort` returns the list as it is. -/
theorem listsort_of_sorted (list : List DHCPCD_WI_SCAN)
    (hs : list.Pairwise (fun a b => ssidLe a b = true)) : listsort list = some list := by
  obtain ⟨out, he, _, _⟩ := listsort_spec list
  cases list with
  | nil => rfl
  | cons e l =>
    have : out = e :: l := listsortLoop_of_sorted _ 1 _ _ hs he
    rw [he, this]

theorem sortedBySsid_iff (l : List DHCPCD_WI_SCAN) :
    SortedBySsid l ↔ l.Pairwise (fun a b => ssidLe a b = true) := by
  have htrans : IsTrans DHCPCD_WI_SCAN (fun a b => strcasecmp a.ssid b.ssid ≤ 0) :=
    ⟨fun a b c hab hbc => strcasecmpBytes_trans _ _ _ hab hbc⟩
  unfold SortedBySsid
  rw [List.chain'_iff_pairwise]
  simp only [ssidLe_iff]

/-! ## The filter and dedup loop -/

theorem strlen_eq_zero (s : String) : strlen s = 0 ↔ s = "" := by
  unfold strlen
  constructor
  · intro h
    have hd : s.data = [] := List.eq_nil_of_length_eq_zero h
    calc s = ⟨s.data⟩ := rfl
      _ = ⟨[]⟩ := by rw [hd]
  · intro h
    rw [h]
    rfl

theorem g_strcmp0_eq_zero (a b : String) : g_strcmp0 a b = 0 ↔ a = b := by
  unfold g_strcmp0
  split_ifs <;> simp [*]

theorem scanInner_sublist (sc : DHCPCD_WI_SCAN) (rest : List DHCPCD_WI_SCAN) :
    List.Sublist (scanInner sc rest).2 rest := by
  induction rest with
  | nil => simp [scanInner]
  | cons sc2 rest ih =>
    unfold scanInner
    split_ifs
    · exact List.Sublist.refl _
    · exact ih.trans (List.sublist_cons_self _ _)
    · exact ih.cons₂ _

/-- When the inner loop ends without deleting `sc`, it has unlinked exactly the
later nodes with `sc`'s ssid, and none of them was stronger than `sc`. -/
theorem scanInner_keep (sc : DHCPCD_WI_SCAN) (rest : List DHCPCD_WI_SCAN)
    (h : (scanInner sc rest).1 = false) :
    (scanInner sc rest).2 = rest.filter (fun x => decide (x.ssid ≠ sc.ssid)) ∧
      ∀ x ∈ rest, x.ssid = sc.ssid → x.strength ≤ sc.strength := by
  induction rest with
  | nil => simp [scanInner]
  | cons sc2 rest ih =>
    unfold scanInner at h ⊢
    by_cases hc : g_strcmp0 sc.ssid sc2.ssid = 0
    · have heq := (g_strcmp0_eq_zero _ _).1 hc
      by_cases hlt : sc.strength < sc2.strength
      · simp [hc, hlt] at h
      · simp only [hc, hlt, if_true, if_false] at h ⊢
        obtain ⟨h1, h2⟩ := ih h
        refine ⟨by simp [h1, heq], ?_⟩
        intro x hx hxs
        rcases List.mem_cons.1 hx with rfl | hx
        · omega
        · exact h2 x hx hxs
    · have hne : ¬ sc.ssid = sc2.ssid := fun h => hc ((g_strcmp0_eq_zero _ _).2 h)
      simp only [hc, if_false] at h ⊢
      obtain ⟨h1, h2⟩ := ih h
      refine ⟨by simp [h1, Ne.symm hne], ?_⟩
      intro x hx hxs
      rcases List.mem_cons.1 hx with rfl | hx
      · exact absurd hxs.symm hne
      · exact h2 x hx hxs

/-- When the inner loop deletes `sc`, a strictly stronger node with the same
ssid is still linked, and every node it unlinked on the way had `sc`'s ssid
and was not stronger than `sc`. -/
theorem scanInner_delete (sc : DHCPCD_WI_SCAN) (rest : List DHCPCD_WI_SCAN)
    (h : (scanInner sc rest).1 = true) :
    (∃ y ∈ (scanInner sc rest).2, y.ssid = sc.ssid ∧ sc.strength < y.strength) ∧
      ∀ x ∈ rest, x ∈ (scanInner sc rest).2 ∨
        (x.ssid = sc.ssid ∧ x.strength ≤ sc.strength) := by
  induction rest with
  | nil => simp [scanInner] at h
  | cons sc2 rest ih =>
    unfold scanInner at h ⊢
    by_cases hc : g_strcmp0 sc.ssid sc2.ssid = 0
    · have heq := (g_strcmp0_eq_zero _ _).1 hc
      by_cases hlt : sc.strength < sc2.strength
      · simp only [hc, hlt, if_true]
        exact ⟨⟨sc2, List.mem_cons_self _ _, heq.symm, hlt⟩, fun x hx => Or.inl hx⟩
      · simp only [hc, hlt, if_true, if_false] at h ⊢
        obtain ⟨h1, h2⟩ := ih h
        refine ⟨h1, ?_⟩
        intro x hx
        rcases List.mem_cons.1 hx with rfl | hx
        · exact Or.inr ⟨heq.symm, by omega⟩
        · exact h2 x hx
    · simp only [hc, if_false] at h ⊢
      obtain ⟨⟨y, hy, hy2⟩, h2⟩ := ih h
      refine ⟨⟨y, List.mem_cons_of_mem _ hy, hy2⟩, ?_⟩
      intro x hx
      rcases List.mem_cons.1 hx with rfl | hx
      · exact Or.inl (List.mem_cons_self _ _)
      · rcases h2 x hx with h3 | h3
        · exact Or.inl (List.mem_cons_of_mem _ h3)
        · exact Or.inr h3

/-- The filter and dedup loop returns; its result is a sublist of the input
with no empty ssid and no repeated ssid, and every non-empty ssid of the input
is kept on a node at least as strong as each input node carrying it. -/
theorem processLoop_spec (fuel : Nat) (l : List DHCPCD_WI_SCAN) (hf : l.length < fuel) :
    ∃ out, processLoop fuel l = some out ∧ List.Sublist out l ∧
      (∀ r ∈ out, r.ssid ≠ "") ∧ (out.map (fun r => r.ssid)).Nodup ∧
      ∀ x ∈ l, x.ssid ≠ "" → ∃ r ∈ out, r.ssid = x.ssid ∧ x.strength ≤ r.strength := by
  induction fuel generalizing l with
  | zero => omega
  | succ fuel ih =>
    cases l with
    | nil => exact ⟨[], by simp [processLoop], List.Sublist.refl _, by simp, by simp, by simp⟩
    | cons sc rest =>
      simp only [List.length_cons] at hf
      have hsub := scanInner_sublist sc rest
      have hlen := hsub.length_le
      unfold processLoop
      by_cases hz : strlen sc.ssid = 0
      · have hempty := (strlen_eq_zero _).1 hz
        obtain ⟨out, he, hs, hne, hnd, hcov⟩ := ih rest (by omega)
        refine ⟨out, by simp [hz, he], hs.trans (List.sublist_cons_self _ _), hne, hnd, ?_⟩
        intro x hx hxne
        rcases List.mem_cons.1 hx with rfl | hx
        · exact absurd hempty hxne
        · exact hcov x hx hxne
      · have hscne : sc.ssid ≠ "" := fun h => hz ((strlen_eq_zero _).2 h)
        obtain ⟨out, he, hs, hne, hnd, hcov⟩ := ih (scanInner sc rest).2 (by omega)
        cases hdel : (scanInner sc rest).1 with
        | true =>
          obtain ⟨⟨y, hy, hys, hyst⟩, hall⟩ := scanInner_delete sc rest hdel
          refine ⟨out, by simp [hz, hdel, he],
            (hs.trans hsub).trans (List.sublist_cons_self _ _), hne, hnd, ?_⟩
          have hsc : ∃ r ∈ out, r.ssid = sc.ssid ∧ sc.strength ≤ r.strength := by
            obtain ⟨r, hr, hrs, hrst⟩ := hcov y hy (by rw [hys]; exact hscne)
            exact ⟨r, hr, by rw [hrs, hys], by omega⟩
          intro x hx hxne
          rcases List.mem_cons.1 hx with rfl | hx
          · exact hsc
          · rcases hall x hx with h3 | ⟨h3, h4⟩
            · exact hcov x h3 hxne
            · obtain ⟨r, hr, hrs, hrst⟩ := hsc
              exact ⟨r, hr, by rw [hrs, h3], by omega⟩
        | false =>
          obtain ⟨hfil, hmax⟩ := scanInner_keep sc rest hdel
          have hout : ∀ r ∈ out, r.ssid ≠ sc.ssid := by
            intro r hr
            have := hs.subset hr
            rw [hfil, List.mem_filter] at this
            simpa using this.2
          refine ⟨sc :: out, by simp [hz, hdel, he], (hs.trans hsub).cons₂ _, ?_, ?_, ?_⟩
          · intro r hr
            rcases List.mem_cons.1 hr with rfl | hr
            · exact hscne
            · exact hne r hr
          · rw [List.map_cons, List.nodup_cons]
            refine ⟨?_, hnd⟩
            intro hmem
            obtain ⟨r, hr, hrs⟩ := List.mem_map.1 hmem
            exact hout r hr hrs
          · intro x hx hxne
            by_cases hxs : x.ssid = sc.ssid
            · refine ⟨sc, List.mem_cons_self _ _, hxs.symm, ?_⟩
              rcases List.mem_cons.1 hx with rfl | hx
              · exact le_refl _
              · exact hmax x hx hxs
            · have hxrest : x ∈ rest := by
                rcases List.mem_cons.1 hx with rfl | hx
                · exact absurd rfl hxs
                · exact hx
              have hx2 : x ∈ (scanInner sc rest).2 := by
                rw [hfil, List.mem_filter]
                exact ⟨hxrest, by simpa using hxs⟩
              obtain ⟨r, hr, hrs, hrst⟩ := hcov x hx2 hxne
              exact ⟨r, List.mem_cons_of_mem _ hr, hrs, hrst⟩

theorem scanInner_of_fresh (sc : DHCPCD_WI_SCAN) (rest : List DHCPCD_WI_SCAN)
    (h : ∀ x ∈ rest, x.ssid ≠ sc.ssid) : scanInner sc rest = (false, rest) := by
  induction rest with
  | nil => rfl
  | cons sc2 rest ih =>
    have hne : ¬ g_strcmp0 sc.ssid sc2.ssid = 0 := fun hc =>
      h sc2 (List.mem_cons_self _ _) ((g_strcmp0_eq_zero _ _).1 hc).symm
    unfold scanInner
    rw [if_neg hne, ih (fun x hx => h x (List.mem_cons_of_mem _ hx))]

/-- A list with no empty and no repeated ssid passes the filter and dedup loop
unchanged. -/
theorem processLoop_of_clean (fuel : Nat) (l : List DHCPCD_WI_SCAN) (hf : l.length < fuel)
    (hne : ∀ r ∈ l, r.ssid ≠ "") (hnd : (l.map (fun r => r.ssid)).Nodup) :
    processLoop fuel l = some l := by
  induction fuel generalizing l with
  | zero => omega
  | succ fuel ih =>
    cases l with
    | nil => rfl
    | cons sc rest =>
      simp only [List.length_cons] at hf
      rw [List.map_cons, List.nodup_cons] at hnd
      have hz : ¬ strlen sc.ssid = 0 := fun h =>
        hne sc (List.mem_cons_self _ _) ((strlen_eq_zero _).1 h)
      have hfresh : scanInner sc rest = (false, rest) :=
        scanInner_of_fresh sc rest (fun x hx hxs =>
          hnd.1 (List.mem_map.2 ⟨x, hx, hxs⟩))
      unfold processLoop
      rw [if_neg hz, hfresh]
      simp [ih rest (by omega) (fun r hr => hne r (List.mem_cons_of_mem _ hr)) hnd.2]

/-- What `process_scans` computes: it returns a list that is sorted, made of
input records, free of empty and of repeated ssids, and that keeps every
non-empty input ssid on a record at least as strong as each input record with
that ssid. -/
theorem process_scans_spec (L : List DHCPCD_WI_SCAN) :
    ∃ out, process_scans L = some out ∧
      out.Pairwise (fun a b => ssidLe a b = true) ∧
      (∀ r ∈ out, r ∈ L) ∧ (∀ r ∈ out, r.ssid ≠ "") ∧
      (out.map (fun r => r.ssid)).Nodup ∧
      ∀ x ∈ L, x.ssid ≠ "" → ∃ r ∈ out, r.ssid = x.ssid ∧ x.strength ≤ r.strength := by
  obtain ⟨mid, he, hsub, hne, hnd, hcov⟩ := processLoop_spec (L.length + 1) L (by omega)
  obtain ⟨out, hs, hperm, hsorted⟩ := listsort_spec mid
  refine ⟨out, by simp [process_scans, he, hs], hsorted, ?_, ?_, ?_, ?_⟩
  · exact fun r hr => hsub.subset (hperm.subset hr)
  · exact fun r hr => hne r (hperm.subset hr)
  · exact ((hperm.map _).nodup_iff).2 hnd
  · intro x hx hxne
    obtain ⟨r, hr, h⟩ := hcov x hx hxne
    exact ⟨r, hperm.symm.subset hr, h⟩

/-- A sorted list with no empty and no repeated ssid is returned as it is. -/
theorem process_scans_of_clean (L : List DHCPCD_WI_SCAN)
    (hs : L.Pairwise (fun a b => ssidLe a b = true))
    (hne : ∀ r ∈ L, r.ssid ≠ "") (hnd : (L.map (fun r => r.ssid)).Nodup) :
    process_scans L = some L := by
  unfold process_scans
  rw [processLoop_of_clean _ L (by omega) hne hnd]
  exact listsort_of_sorted L hs

/-! ## Claims about `process_scans` -/

/-- C1: for every input list `L`, `process_scans (L)` returns a list that has
no record with an empty ssid and no two records with equal ssid. -/
theorem process_scans_no_empty_no_duplicate (L : List DHCPCD_WI_SCAN) :
    ∃ out, process_scans L = some out ∧
      (∀ r ∈ out, r.ssid ≠ "") ∧ (out.map (fun r => r.ssid)).Nodup := by
  obtain ⟨out, he, _, _, hne, hnd, _⟩ := process_scans_spec L
  exact ⟨out, he, hne, hnd⟩

/-- C2: for every input list `L` and every record `r` of `process_scans (L)`,
the strength of `r` is the maximum strength over the records of `L` with
`r`'s ssid: some record of `L` with that ssid has this strength, and no
record of `L` with that ssid is stronger.  The four-record input A/10, A/20,
""/5, B/1 yields A/20 (bssid b2), B/1 (bssid b4). -/
theorem process_scans_strength_is_max :
    (∀ L : List DHCPCD_WI_SCAN, ∃ out, process_scans L = some out ∧
      ∀ r ∈ out,
        (∃ x ∈ L, x.ssid = r.ssid ∧ x.strength = r.strength) ∧
        (∀ x ∈ L, x.ssid = r.ssid → x.strength ≤ r.strength)) ∧
    process_scans [⟨"A", "b1", 10⟩, ⟨"A", "b2", 20⟩, ⟨"", "b3", 5⟩, ⟨"B", "b4", 1⟩]
      = some [⟨"A", "b2", 20⟩, ⟨"B", "b4", 1⟩] := by
  refine ⟨?_, by decide⟩
  intro L
  obtain ⟨out, he, _, hmem, hne, hnd, hcov⟩ := process_scans_spec L
  refine ⟨out, he, fun r hr => ⟨⟨r, hmem r hr, rfl, rfl⟩, ?_⟩⟩
  intro x hx hxs
  obtain ⟨r2, hr2, hs2, hst⟩ := hcov x hx (by rw [hxs]; exact hne r hr)
  have : r2 = r :=
    List.inj_on_of_nodup_map hnd hr2 hr (by rw [hs2, hxs])
  rw [← this]
  exact hst

/-- C3: for every input list `L`, `process_scans (L)` returns a list sorted
ascending by case-insensitive ssid: every adjacent pair `(a, b)` of the output
has `strcasecmp (a.ssid, b.ssid) <= 0`. -/
theorem process_scans_sorted (L : List DHCPCD_WI_SCAN) :
    ∃ out, process_scans L = some out ∧
      List.Chain' (fun a b => strcasecmp a.ssid b.ssid ≤ 0) out := by
  obtain ⟨out, he, hs, _⟩ := process_scans_spec L
  exact ⟨out, he, (sortedBySsid_iff out).2 hs⟩

/-- C4: `process_scans` is idempotent: for every input list `L` it returns a
list `out`, and `process_scans (out)` returns `out` again, record for record
and in the same order. -/
theorem process_scans_idempotent (L : List DHCPCD_WI_SCAN) :
    ∃ out, process_scans L = some out ∧ process_scans out = some out := by
  obtain ⟨out, he, hs, _, hne, hnd, _⟩ := process_scans_spec L
  exact ⟨out, he, process_scans_of_clean out hs hne hnd⟩

/-- C5, as stated, fails: the one-record list holding a record with the empty
ssid is sorted and duplicate-free, yet `process_scans` returns the empty list
for it, not the list itself. -/
theorem process_scans_sorted_nodup_changed :
    SortedBySsid [⟨"", "b1", 7⟩] ∧
    (([⟨"", "b1", 7⟩] : List DHCPCD_WI_SCAN).map (fun r => r.ssid)).Nodup ∧
    process_scans [⟨"", "b1", 7⟩] = some [] ∧
    process_scans [⟨"", "b1", 7⟩] ≠ some [⟨"", "b1", 7⟩] :=
  ⟨List.chain'_singleton _, by decide, by decide, by decide⟩

/-- C5, amended: for every list `L` that is sorted ascending by
case-insensitive ssid, has no two records with equal ssid and has no record
with an empty ssid, `process_scans (L)` returns `L` unchanged (same records,
same order); and `process_scans` of the empty list is the empty list. -/
theorem process_scans_sorted_nodup_nonempty_unchanged :
    (∀ L : List DHCPCD_WI_SCAN, SortedBySsid L →
      (L.map (fun r => r.ssid)).Nodup → (∀ r ∈ L, r.ssid ≠ "") →
      process_scans L = some L) ∧
    process_scans [] = some [] :=
  ⟨fun L hs hnd hne => process_scans_of_clean L ((sortedBySsid_iff L).1 hs) hne hnd, rfl⟩

/-- C5, amended, at the list a/3, B/1, c/2. -/
theorem process_scans_sorted_nodup_nonempty_unchanged_witness :
    SortedBySsid [⟨"a", "b1", 3⟩, ⟨"B", "b2", 1⟩, ⟨"c", "b3", 2⟩] ∧
    (([⟨"a", "b1", 3⟩, ⟨"B", "b2", 1⟩, ⟨"c", "b3", 2⟩] : List DHCPCD_WI_SCAN).map
      (fun r => r.ssid)).Nodup ∧
    (∀ r ∈ ([⟨"a", "b1", 3⟩, ⟨"B", "b2", 1⟩, ⟨"c", "b3", 2⟩] : List DHCPCD_WI_SCAN),
      r.ssid ≠ "") ∧
    process_scans [⟨"a", "b1", 3⟩, ⟨"B", "b2", 1⟩, ⟨"c", "b3", 2⟩]
      = some [⟨"a", "b1", 3⟩, ⟨"B", "b2", 1⟩, ⟨"c", "b3", 2⟩] :=
  ⟨by simp only [SortedBySsid, List.chain'_cons, List.chain'_singleton]; decide,
    by decide, by decide,
    process_scans_sorted_nodup_nonempty_unchanged.1 _
      (by simp only [SortedBySsid, List.chain'_cons, List.chain'_singleton]; decide)
      (by decide) (by decide)⟩

/-! ## Watch registry -/

theorem dhcpcd_findwatch_some (fd : Int) (data : Nat) (ws l next : List watch) (w : watch)
    (h : dhcpcd_findwatch fd data ws = (l, some (w, next))) :
    ws = l ++ w :: next ∧ (w.fd = fd ∨ w.ref = data) ∧
      ∀ x ∈ l, ¬ (x.fd = fd ∨ x.ref = data) := by
  induction ws generalizing l with
  | nil => simp [dhcpcd_findwatch] at h
  | cons x rest ih =>
    unfold dhcpcd_findwatch at h
    split_ifs at h with hx
    · simp only [Prod.mk.injEq, Option.some.injEq] at h
      obtain ⟨rfl, rfl, rfl⟩ := h
      exact ⟨rfl, hx, by simp⟩
    · simp only [Prod.mk.injEq] at h
      obtain ⟨rfl, h2⟩ := h
      obtain ⟨h3, h4, h5⟩ := ih (dhcpcd_findwatch fd data rest).1 (Prod.ext rfl h2)
      refine ⟨by rw [List.cons_append, ← h3], h4, ?_⟩
      intro y hy
      rcases List.mem_cons.1 hy with rfl | hy
      · exact hx
      · exact h5 y hy

theorem dhcpcd_findwatch_none (fd : Int) (data : Nat) (ws : List watch)
    (h : (dhcpcd_findwatch fd data ws).2 = none) :
    ∀ x ∈ ws, ¬ (x.fd = fd ∨ x.ref = data) := by
  induction ws with
  | nil => simp
  | cons x rest ih =>
    unfold dhcpcd_findwatch at h
    by_cases hx : x.fd = fd ∨ x.ref = data
    · simp [hx] at h
    · simp only [hx, if_false] at h
      intro y hy
      rcases List.mem_cons.1 hy with rfl | hy
      · exact hx
      · exact ih h y hy

theorem dhcpcd_unwatch_sublist (ws : List watch) (fd : Int) (data : Nat) :
    List.Sublist (dhcpcd_unwatch ws fd data) ws := by
  unfold dhcpcd_unwatch
  cases hf : dhcpcd_findwatch fd data ws with
  | mk l found =>
    cases found with
    | none => exact List.Sublist.refl _
    | some r =>
      obtain ⟨w, next⟩ := r
      obtain ⟨h1, _, _⟩ := dhcpcd_findwatch_some fd data ws l next w hf
      simp only [h1]
      exact List.Sublist.append (List.Sublist.refl l) (List.sublist_cons_self w next)

/-- `dhcpcd_unwatch` keeps the registry invariant. -/
theorem dhcpcd_unwatch_unique (ws : List watch) (fd : Int) (data : Nat)
    (h : WatchesUnique ws) : WatchesUnique (dhcpcd_unwatch ws fd data) :=
  ⟨h.1.sublist ((dhcpcd_unwatch_sublist ws fd data).map _),
   h.2.sublist ((dhcpcd_unwatch_sublist ws fd data).map _)⟩

/-- `dhcpcd_watch`, whether it succeeds or fails, keeps "at most one entry per
owner reference". -/
theorem dhcpcd_watch_owner_unique (env : WatchEnv) (ws : List watch) (fd : Int) (data : Nat)
    (h : (ws.map (fun w => w.ref)).Nodup) :
    ((dhcpcd_watch env ws fd data).2.map (fun w => w.ref)).Nodup := by
  unfold dhcpcd_watch
  cases hf : dhcpcd_findwatch fd data ws with
  | mk l found =>
    cases found with
    | none =>
      have hnone := dhcpcd_findwatch_none fd data ws (by rw [hf])
      have hfresh : data ∉ ws.map (fun w => w.ref) := by
        intro hm
        obtain ⟨x, hx, hxr⟩ := List.mem_map.1 hm
        exact hnone x hx (Or.inr hxr)
      simp only
      cases env.gio with
      | none => exact h
      | some g =>
        simp only
        split_ifs
        · exact h
        · exact h
        · simp only [List.map_cons, List.nodup_cons]
          exact ⟨hfresh, h⟩
    | some r =>
      obtain ⟨w, next⟩ := r
      obtain ⟨h1, h2, h3⟩ := dhcpcd_findwatch_some fd data ws l next w hf
      simp only
      by_cases hfd : w.fd = fd
      · simp only [hfd, if_true]
        exact h
      · simp only [hfd, if_false]
        have hwr : w.ref = data := by
          rcases h2 with h2 | h2
          · exact absurd h2 hfd
          · exact h2
        rw [h1, List.map_append, List.map_cons] at h
        have hsub : ((l ++ next).map (fun w => w.ref)).Nodup := by
          rw [List.map_append]
          exact h.sublist (List.Sublist.append (List.Sublist.refl _)
            (List.sublist_cons_self _ _))
        have hfresh : data ∉ (l ++ next).map (fun w => w.ref) := by
          rw [List.map_append]
          have := List.nodup_middle.1 h
          rw [hwr] at this
          exact (List.nodup_cons.1 this).1
        cases env.gio with
        | none => exact hsub
        | some g =>
          simp only
          split_ifs
          · exact hsub
          · exact hsub
          · simp only [List.map_cons, List.nodup_cons]
            exact ⟨hfresh, hsub⟩

theorem dhcpcd_watch_true_mem (env : WatchEnv) (ws : List watch) (fd : Int) (data : Nat)
    (h : (dhcpcd_watch env ws fd data).1 = true) :
    ∃ w ∈ (dhcpcd_watch env ws fd data).2, w.fd = fd := by
  unfold dhcpcd_watch at h ⊢
  cases hf : dhcpcd_findwatch fd data ws with
  | mk l found =>
    rw [hf] at h
    cases found with
    | none =>
      simp only at h ⊢
      cases hg : env.gio with
      | none => simp [hg] at h
      | some g =>
        simp only [hg] at h ⊢
        split_ifs at h ⊢ with h1 h2
        exact ⟨_, List.mem_cons_self _ _, rfl⟩
    | some r =>
      obtain ⟨w, next⟩ := r
      obtain ⟨h1, _, _⟩ := dhcpcd_findwatch_some fd data ws l next w hf
      simp only at h ⊢
      by_cases hfd : w.fd = fd
      · simp only [hfd, if_true]
        exact ⟨w, by rw [h1]; simp, hfd⟩
      · simp only [hfd, if_false] at h ⊢
        cases hg : env.gio with
        | none => simp [hg] at h
        | some g =>
          simp only [hg] at h ⊢
          split_ifs at h ⊢ with h1 h2
          exact ⟨_, List.mem_cons_self _ _, rfl⟩

/-- `dhcpcd_watch` keeps "at most one entry per `fd`" when every entry that
already has the new `fd` belongs to the new owner. -/
theorem dhcpcd_watch_fd_unique (env : WatchEnv) (ws : List watch) (fd : Int) (data : Nat)
    (h : WatchesUnique ws) (hown : ∀ w ∈ ws, w.fd = fd → w.ref = data) :
    ((dhcpcd_watch env ws fd data).2.map (fun w => w.fd)).Nodup := by
  obtain ⟨hfds, hrefs⟩ := h
  unfold dhcpcd_watch
  cases hf : dhcpcd_findwatch fd data ws with
  | mk l found =>
    cases found with
    | none =>
      have hnone := dhcpcd_findwatch_none fd data ws (by rw [hf])
      have hfresh : fd ∉ ws.map (fun w => w.fd) := by
        intro hm
        obtain ⟨x, hx, hxr⟩ := List.mem_map.1 hm
        exact hnone x hx (Or.inl hxr)
      simp only
      cases env.gio with
      | none => exact hfds
      | some g =>
        simp only
        split_ifs
        · exact hfds
        · exact hfds
        · simp only [List.map_cons, List.nodup_cons]
          exact ⟨hfresh, hfds⟩
    | some r =>
      obtain ⟨w, next⟩ := r
      obtain ⟨h1, h2, h3⟩ := dhcpcd_findwatch_some fd data ws l next w hf
      simp only
      by_cases hfd : w.fd = fd
      · simp only [hfd, if_true]
        exact hfds
      · simp only [hfd, if_false]
        have hwr : w.ref = data := by
          rcases h2 with h2 | h2
          · exact absurd h2 hfd
          · exact h2
        have hsubl : List.Sublist (l ++ next) ws := by
          rw [h1]
          exact List.Sublist.append (List.Sublist.refl _) (List.sublist_cons_self _ _)
        have hsub : ((l ++ next).map (fun w => w.fd)).Nodup := hfds.sublist (hsubl.map _)
        have hrfresh : data ∉ (l ++ next).map (fun w => w.ref) := by
          rw [h1, List.map_append, List.map_cons] at hrefs
          rw [List.map_append]
          have := List.nodup_middle.1 hrefs
          rw [hwr] at this
          exact (List.nodup_cons.1 this).1
        have hfresh : fd ∉ (l ++ next).map (fun w => w.fd) := by
          intro hm
          obtain ⟨x, hx, hxf⟩ := List.mem_map.1 hm
          exact hrfresh (List.mem_map.2 ⟨x, hx, hown x (hsubl.subset hx) hxf⟩)
        cases env.gio with
        | none => exact hsub
        | some g =>
          simp only
          split_ifs
          · exact hsub
          · exact hsub
          · simp only [List.map_cons, List.nodup_cons]
            exact ⟨hfresh, hsub⟩

/-- C6, the code at the failing input: from the empty registry, after
`dhcpcd_watch (7, cb, 100)` and `dhcpcd_watch (5, cb, 200)` the registry has at
most one entry per `fd` and per owner; `dhcpcd_watch (7, cb, 200)` then finds
the owner's entry for `fd` 5 first, unlinks it, and links a second entry with
`fd` 7, so the registry no longer has at most one entry per `fd`. -/
theorem dhcpcd_watch_duplicates_fd :
    WatchesUnique (runWatchOps []
      [WatchOp.watch ⟨some 1, 1, true⟩ 7 100, WatchOp.watch ⟨some 2, 2, true⟩ 5 200]) ∧
    runWatchOps []
      [WatchOp.watch ⟨some 1, 1, true⟩ 7 100, WatchOp.watch ⟨some 2, 2, true⟩ 5 200,
       WatchOp.watch ⟨some 3, 3, true⟩ 7 200]
      = [⟨200, 7, 3, 3⟩, ⟨100, 7, 1, 1⟩] ∧
    ¬ WatchesUnique (runWatchOps []
      [WatchOp.watch ⟨some 1, 1, true⟩ 7 100, WatchOp.watch ⟨some 2, 2, true⟩ 5 200,
       WatchOp.watch ⟨some 3, 3, true⟩ 7 200]) := by
  unfold WatchesUnique
  decide

/-- C7: from the empty registry, for every owner `A` and every two distinct
descriptors `fd1`, `fd2`, with the GLib calls succeeding, `dhcpcd_watch (fd1,
cb, A)` then `dhcpcd_watch (fd2, cb, A)` both return TRUE and leave exactly
one entry, which has `fd = fd2` and owner `A`; a following `dhcpcd_unwatch` on
`fd2` (with any owner argument) leaves the registry empty. -/
theorem dhcpcd_watch_again_replaces (A : Nat) (fd1 fd2 : Int) (env1 env2 : WatchEnv)
    (g1 g2 : Nat) (hfd : fd1 ≠ fd2) (h1 : env1.Succeeds g1) (h2 : env2.Succeeds g2) :
    (dhcpcd_watch env1 [] fd1 A).1 = true ∧
    (dhcpcd_watch env2 (dhcpcd_watch env1 [] fd1 A).2 fd2 A).1 = true ∧
    (dhcpcd_watch env2 (dhcpcd_watch env1 [] fd1 A).2 fd2 A).2
      = [{ ref := A, fd := fd2, eventid := env2.eventid, gio := g2 }] ∧
    ∀ data, dhcpcd_unwatch
      (dhcpcd_watch env2 (dhcpcd_watch env1 [] fd1 A).2 fd2 A).2 fd2 data = [] := by
  obtain ⟨h1g, h1e, h1a⟩ := h1
  obtain ⟨h2g, h2e, h2a⟩ := h2
  have e1 : dhcpcd_watch env1 [] fd1 A
      = (true, [{ ref := A, fd := fd1, eventid := env1.eventid, gio := g1 }]) := by
    simp [dhcpcd_watch, dhcpcd_findwatch, h1g, h1e, h1a]
  have e2 : dhcpcd_watch env2 [{ ref := A, fd := fd1, eventid := env1.eventid, gio := g1 }] fd2 A
      = (true, [{ ref := A, fd := fd2, eventid := env2.eventid, gio := g2 }]) := by
    simp [dhcpcd_watch, dhcpcd_findwatch, h2g, h2e, h2a, hfd]
  rw [e1]
  simp only [e2]
  refine ⟨trivial, trivial, trivial, ?_⟩
  intro data
  simp [dhcpcd_unwatch, dhcpcd_findwatch]

/-- C7 at `fd1 = 5`, `fd2 = 7`, owner 100. -/
theorem dhcpcd_watch_again_replaces_witness :
    (dhcpcd_watch ⟨some 2, 2, true⟩ (dhcpcd_watch ⟨some 1, 1, true⟩ [] 5 100).2 7 100).2
      = [{ ref := 100, fd := 7, eventid := 2, gio := 2 }] ∧
    dhcpcd_unwatch
      (dhcpcd_watch ⟨some 2, 2, true⟩ (dhcpcd_watch ⟨some 1, 1, true⟩ [] 5 100).2 7 100).2
      7 0 = [] :=
  have h := dhcpcd_watch_again_replaces 100 5 7 ⟨some 1, 1, true⟩ ⟨some 2, 2, true⟩ 1 2
    (by decide) ⟨rfl, by decide, rfl⟩ ⟨rfl, by decide, rfl⟩
  ⟨h.2.2.1, h.2.2.2 0⟩

/-! ## Scan diff -/

theorem findBssid_eq_none (s1 : DHCPCD_WI_SCAN) (wscans : List DHCPCD_WI_SCAN) :
    findBssid s1 wscans = none ↔
      wscans.all (fun s2 => decide (s1.bssid ≠ s2.bssid)) = true := by
  induction wscans with
  | nil => simp [findBssid]
  | cons s2 next ih =>
    unfold findBssid
    by_cases hc : g_strcmp0 s1.bssid s2.bssid = 0
    · have := (g_strcmp0_eq_zero _ _).1 hc
      simp [hc, this]
      intro h
      rw [this] at hc
      simp [hc] at h
    · have hne : ¬ s1.bssid = s2.bssid := fun h => hc ((g_strcmp0_eq_zero _ _).2 h)
      simp only [hc, if_false, ih]
      simp [hne]

theorem newRecords_cons_old (s1 : DHCPCD_WI_SCAN) (next wscans : List DHCPCD_WI_SCAN)
    (x : DHCPCD_WI_SCAN) (h : findBssid s1 wscans = some x) :
    newRecords (s1 :: next) wscans = newRecords next wscans := by
  have hn : ¬ wscans.all (fun s2 => decide (s1.bssid ≠ s2.bssid)) = true := by
    rw [← findBssid_eq_none, h]
    simp
  unfold newRecords
  simp only [List.filter_cons]
  rw [if_neg hn]

theorem newRecords_cons_new (s1 : DHCPCD_WI_SCAN) (next wscans : List DHCPCD_WI_SCAN)
    (h : findBssid s1 wscans = none) :
    newRecords (s1 :: next) wscans = s1 :: newRecords next wscans := by
  unfold newRecords
  simp only [List.filter_cons]
  rw [if_pos ((findBssid_eq_none _ _).1 h)]

theorem scanDiffLoop_some (wscans scans : List DHCPCD_WI_SCAN) (msg t : String) :
    scanDiffLoop wscans scans (msg, some t)
      = (if newRecords scans wscans = [] then msg else "New Access Points",
         some (String.intercalate.go t "\n" ((newRecords scans wscans).map (fun r => r.ssid)))) := by
  induction scans generalizing msg t with
  | nil => simp [scanDiffLoop, newRecords, String.intercalate.go]
  | cons s1 next ih =>
    unfold scanDiffLoop
    cases hf : findBssid s1 wscans with
    | some x =>
      simp only
      rw [ih, newRecords_cons_old s1 next wscans x hf]
    | none =>
      simp only
      rw [ih, newRecords_cons_new s1 next wscans hf]
      simp [String.intercalate.go]

theorem scanDiffLoop_none (wscans scans : List DHCPCD_WI_SCAN) (msg : String) :
    scanDiffLoop wscans scans (msg, none)
      = match newRecords scans wscans with
        | [] => (msg, none)
        | r :: rs => (if rs = [] then msg else "New Access Points",
            some (String.intercalate.go r.ssid "\n" (rs.map (fun r => r.ssid)))) := by
  induction scans generalizing msg with
  | nil => simp [scanDiffLoop, newRecords]
  | cons s1 next ih =>
    unfold scanDiffLoop
    cases hf : findBssid s1 wscans with
    | some x =>
      simp only
      rw [ih, newRecords_cons_old s1 next wscans x hf]
    | none =>
      simp only
      rw [scanDiffLoop_some, newRecords_cons_new s1 next wscans hf]

/-- C8: in the branch of `dhcpcd_wpa_scan_cb` for an interface that already
has a scan set, with `New` the records of the new list whose bssid is the
bssid of no record of the stored list, in the order of the new list: no
`notify` call is made when `New` is empty; otherwise exactly one is made, its
text the ssids of `New` joined by newline in that order, its title "New Access
Point" when `New` has one record and "New Access Points" when it has more.
Stored b1, b2 and new b2, b3 give one call with the singular title and the
ssid of b3. -/
theorem scan_diff_notifies_new_records :
    (∀ scans wscans : List DHCPCD_WI_SCAN,
      scanDiffNotify scans wscans =
        if newRecords scans wscans = [] then []
        else [(if (newRecords scans wscans).length = 1 then "New Access Point"
                 else "New Access Points",
               String.intercalate "\n" ((newRecords scans wscans).map (fun r => r.ssid)),
               "network-wireless")]) ∧
    newRecords [⟨"two", "b2", 1⟩, ⟨"three", "b3", 1⟩] [⟨"one", "b1", 1⟩, ⟨"two", "b2", 1⟩]
      = [⟨"three", "b3", 1⟩] ∧
    scanDiffNotify [⟨"two", "b2", 1⟩, ⟨"three", "b3", 1⟩] [⟨"one", "b1", 1⟩, ⟨"two", "b2", 1⟩]
      = [("New Access Point", "three", "network-wireless")] := by
  refine ⟨?_, by decide, by decide⟩
  intro scans wscans
  unfold scanDiffNotify
  rw [scanDiffLoop_none]
  cases hn : newRecords scans wscans with
  | nil => simp
  | cons r rs =>
    cases rs with
    | nil => simp [String.intercalate]
    | cons r2 rs2 => simp [String.intercalate]

/-! ## Notifier -/

theorem strcmp_eq_zero (a b : String) : strcmp a b = 0 ↔ a = b := by
  unfold strcmp
  split_ifs <;> simp [*]

theorem notify_eq (s : NotifyState) (title m icon : String) :
    notify s title (some m) icon =
      if s.notify_last_msg = some m then s
      else { notify_last_msg := some m,
             nn := some { title := title, msg := m, icon := icon },
             log := s.log ++
               (match s.nn with
                | some old => [NotifyEvent.close old]
                | none => []) ++
               [NotifyEvent.shown { title := title, msg := m, icon := icon }] } := by
  unfold notify
  cases hl : s.notify_last_msg with
  | none => simp
  | some last =>
    by_cases h : m = last
    · subst h
      simp [(strcmp_eq_zero m m).2 rfl]
    · have h1 : ¬ strcmp m last = 0 := fun hc => h ((strcmp_eq_zero _ _).1 hc)
      have h2 : ¬ last = m := fun hc => h hc.symm
      simp [h1, h2]

theorem lastShown_notify (s : NotifyState) (title m icon : String) :
    lastShown (s.log ++
      (match s.nn with
       | some old => [NotifyEvent.close old]
       | none => []) ++
      [NotifyEvent.shown { title := title, msg := m, icon := icon }]) = some m := by
  unfold lastShown
  rw [List.foldl_append]
  rfl

theorem applyNotifyStep_last (s : NotifyState) (step : NotifyStep)
    (h : s.notify_last_msg = lastShown s.log) :
    (applyNotifyStep s step).notify_last_msg = lastShown (applyNotifyStep s step).log := by
  cases step with
  | call title msg icon =>
    simp only [applyNotifyStep]
    rw [notify_eq]
    split_ifs with hc
    · exact h
    · exact (lastShown_notify s title msg icon).symm
  | closed => exact h

theorem foldl_notify_last (steps : List NotifyStep) (s : NotifyState)
    (h : s.notify_last_msg = lastShown s.log) :
    (steps.foldl applyNotifyStep s).notify_last_msg
      = lastShown (steps.foldl applyNotifyStep s).log := by
  induction steps generalizing s with
  | nil => exact h
  | cons step rest ih => exact ih _ (applyNotifyStep_last s step h)

/-- C9: after any sequence of `notify` calls with non-NULL text (and "closed"
signals) from program start, `notify_last_msg` is the text of the most
recently shown notification, and a further `notify (title, msg, icon)` does
nothing when `msg` equals that text, and otherwise closes the pending
notification if there is one, then shows the new one, which becomes the
pending one, and records `msg` as the last shown text; the first call always
shows.  Two identical texts in a row show once; a differing text is shown and
replaces the pending notification. -/
theorem notify_suppresses_repeated_text :
    (∀ (steps : List NotifyStep) (title msg icon : String),
      (runNotify steps).notify_last_msg = lastShown (runNotify steps).log ∧
      notify (runNotify steps) title (some msg) icon =
        if lastShown (runNotify steps).log = some msg then runNotify steps
        else { notify_last_msg := some msg,
               nn := some { title := title, msg := msg, icon := icon },
               log := (runNotify steps).log ++
                 (match (runNotify steps).nn with
                  | some old => [NotifyEvent.close old]
                  | none => []) ++
                 [NotifyEvent.shown { title := title, msg := msg, icon := icon }] }) ∧
    (∀ title msg icon : String,
      notify NotifyState.init title (some msg) icon =
        { notify_last_msg := some msg,
          nn := some { title := title, msg := msg, icon := icon },
          log := [NotifyEvent.shown { title := title, msg := msg, icon := icon }] }) ∧
    runNotify [NotifyStep.call "t" "up" "i", NotifyStep.call "t" "up" "i"]
      = { notify_last_msg := some "up", nn := some ⟨"t", "up", "i"⟩,
          log := [NotifyEvent.shown ⟨"t", "up", "i"⟩] } ∧
    runNotify [NotifyStep.call "t" "up" "i", NotifyStep.call "t" "down" "i"]
      = { notify_last_msg := some "down", nn := some ⟨"t", "down", "i"⟩,
          log := [NotifyEvent.shown ⟨"t", "up", "i"⟩, NotifyEvent.close ⟨"t", "up", "i"⟩,
                  NotifyEvent.shown ⟨"t", "down", "i"⟩] } := by
  refine ⟨?_, ?_, by decide, by decide⟩
  · intro steps title msg icon
    have hinv : (runNotify steps).notify_last_msg = lastShown (runNotify steps).log :=
      foldl_notify_last steps NotifyState.init rfl
    refine ⟨hinv, ?_⟩
    rw [notify_eq, hinv]
  · intro title msg icon
    rw [notify_eq]
    simp [NotifyState.init]

/-! ## Opening the primary connection -/

theorem tryOpenWatch_false (env : TryOpenEnv) (s : Controller) (con : Nat) (fd : Int)
    (h : (tryOpenWatch env s con fd).1 = false) :
    (dhcpcd_watch env.watchEnv s.watches fd con).1 = true ∧
      (tryOpenWatch env s con fd).2.watches
        = (dhcpcd_watch env.watchEnv s.watches fd con).2 := by
  unfold tryOpenWatch at h ⊢
  dsimp only at h ⊢
  by_cases hw : (dhcpcd_watch env.watchEnv s.watches fd con).1 = false
  · simp [hw] at h
  · have ht : (dhcpcd_watch env.watchEnv s.watches fd con).1 = true := by
      cases hb : (dhcpcd_watch env.watchEnv s.watches fd con).1
      · exact absurd hb hw
      · rfl
    rw [if_neg hw]
    exact ⟨ht, rfl⟩

theorem tryOpenFail_true (s : Controller) (errno : Int) : (tryOpenFail s errno).1 = true := by
  unfold tryOpenFail
  split_ifs <;> rfl

/-- `dhcpcd_try_open` returns FALSE only when the attempt yielded a descriptor
and `dhcpcd_watch` on it returned TRUE, leaving an entry with that descriptor
in the registry. -/
theorem dhcpcd_try_open_false (env : TryOpenEnv) (s : Controller) (con : Nat)
    (h : (dhcpcd_try_open env s con).1 = false) :
    ∃ fd, openedDescriptor env = some fd ∧
      (dhcpcd_watch env.watchEnv s.watches fd con).1 = true ∧
      ∃ w ∈ (dhcpcd_try_open env s con).2.watches, w.fd = fd := by
  unfold dhcpcd_try_open at h ⊢
  unfold openedDescriptor
  by_cases hp : env.priv.fd = -1
  · simp only [hp, if_true] at h ⊢
    by_cases he : env.priv.errno = EACCES ∨ env.priv.errno = EPERM
    · simp only [he, if_true] at h ⊢
      by_cases hu : env.unpriv.fd = -1
      · simp [hu, tryOpenFail_true] at h
      · simp only [hu, ne_eq, not_false_eq_true, if_true] at h ⊢
        obtain ⟨h1, h2⟩ := tryOpenWatch_false env _ con _ h
        refine ⟨env.unpriv.fd, by simp [hp, he, hu], h1, ?_⟩
        rw [h2]
        exact dhcpcd_watch_true_mem _ _ _ _ h1
    · simp [he, tryOpenFail_true] at h
  · simp only [hp, if_false] at h ⊢
    obtain ⟨h1, h2⟩ := tryOpenWatch_false env _ con _ h
    refine ⟨env.priv.fd, by simp [hp], h1, ?_⟩
    rw [h2]
    exact dhcpcd_watch_true_mem _ _ _ _ h1

theorem tryOpenFail_fields (s : Controller) (errno : Int) :
    (tryOpenFail s errno).2.watches = s.watches ∧
    (tryOpenFail s errno).2.timers = s.timers ∧
    (tryOpenFail s errno).2.armed = s.armed ∧
    (tryOpenFail s errno).2.phases = s.phases ++ [Phase.CLOSED] := by
  unfold tryOpenFail
  split_ifs <;> exact ⟨rfl, rfl, rfl, rfl⟩

theorem dhcpcd_try_open_of_fail (env : TryOpenEnv) (s : Controller) (con : Nat)
    (h : openedDescriptor env = none) :
    ∃ errno, dhcpcd_try_open env s con
      = tryOpenFail { s with phases := s.phases ++ [Phase.OPENING] } errno := by
  unfold openedDescriptor at h
  unfold dhcpcd_try_open
  by_cases hp : env.priv.fd = -1
  · by_cases he : env.priv.errno = EACCES ∨ env.priv.errno = EPERM
    · by_cases hu : env.unpriv.fd = -1
      · exact ⟨env.unpriv.errno, by simp [hp, he, hu]⟩
      · simp [hp, he, hu] at h
    · exact ⟨env.priv.errno, by simp [hp, he]⟩
  · simp [hp] at h

theorem dhcpcd_try_open_of_opened (env : TryOpenEnv) (s : Controller) (con : Nat) (fd : Int)
    (h : openedDescriptor env = some fd) :
    dhcpcd_try_open env s con
      = tryOpenWatch env { s with phases := s.phases ++ [Phase.OPENING] } con fd := by
  unfold openedDescriptor at h
  unfold dhcpcd_try_open
  by_cases hp : env.priv.fd = -1
  · by_cases he : env.priv.errno = EACCES ∨ env.priv.errno = EPERM
    · by_cases hu : env.unpriv.fd = -1
      · simp [hp, he, hu] at h
      · simp only [hp, he, hu, ne_eq, not_true_eq_false, not_false_eq_true, and_self, if_true,
          if_false, Option.some.injEq] at h
        subst h
        simp [hp, he, hu]
    · simp [hp, he] at h
  · simp only [hp, ne_eq, not_false_eq_true, if_true, Option.some.injEq] at h
    subst h
    simp [hp]

theorem dhcpcd_watch_empty (env : WatchEnv) (g : Nat) (fd : Int) (data : Nat)
    (h : env.Succeeds g) :
    dhcpcd_watch env [] fd data
      = (true, [{ ref := data, fd := fd, eventid := env.eventid, gio := g }]) := by
  obtain ⟨hg, he, ha⟩ := h
  simp [dhcpcd_watch, dhcpcd_findwatch, hg, he, ha]

/-- C10: from program start, when the first open attempt yields no descriptor
and the second yields one whose watch registration succeeds: the first
`dhcpcd_try_open` returns TRUE and registers no watch, so `main` arms exactly
one timer with the fixed interval; the second `dhcpcd_try_open`, run by that
timer, returns FALSE and registers the opened descriptor for the connection,
which ends the timer, no other timer having been armed; the controller has
gone through CLOSED, OPENING, CLOSED, OPENING, WATCHING.  And `dhcpcd_try_open`
returns FALSE only when a descriptor was opened (privileged, or unprivileged
after an `EACCES` or `EPERM` failure) and its watch was registered. -/
theorem dhcpcd_try_open_retry :
    (∀ (DHCPCD_RETRYOPEN con : Nat) (env1 env2 : TryOpenEnv) (fd : Int) (g : Nat),
      openedDescriptor env1 = none → openedDescriptor env2 = some fd →
      env2.watchEnv.Succeeds g →
        (dhcpcd_try_open env1 Controller.init con).1 = true ∧
        (dhcpcd_try_open env1 Controller.init con).2.watches = [] ∧
        (mainOpen DHCPCD_RETRYOPEN env1 Controller.init con).timers
          = [{ interval := DHCPCD_RETRYOPEN, data := con }] ∧
        (mainOpen DHCPCD_RETRYOPEN env1 Controller.init con).armed = 1 ∧
        (dhcpcd_try_open env2 (mainOpen DHCPCD_RETRYOPEN env1 Controller.init con) con).1
          = false ∧
        (timerFire env2 (mainOpen DHCPCD_RETRYOPEN env1 Controller.init con)).watches
          = [{ ref := con, fd := fd, eventid := env2.watchEnv.eventid, gio := g }] ∧
        (timerFire env2 (mainOpen DHCPCD_RETRYOPEN env1 Controller.init con)).timers = [] ∧
        (timerFire env2 (mainOpen DHCPCD_RETRYOPEN env1 Controller.init con)).armed = 1 ∧
        (timerFire env2 (mainOpen DHCPCD_RETRYOPEN env1 Controller.init con)).phases
          = [Phase.CLOSED, Phase.OPENING, Phase.CLOSED, Phase.OPENING, Phase.WATCHING]) ∧
    (∀ (env : TryOpenEnv) (s : Controller) (con : Nat),
      (dhcpcd_try_open env s con).1 = false →
        ∃ fd, openedDescriptor env = some fd ∧
          (dhcpcd_watch env.watchEnv s.watches fd con).1 = true ∧
          ∃ w ∈ (dhcpcd_try_open env s con).2.watches, w.fd = fd) := by
  refine ⟨?_, dhcpcd_try_open_false⟩
  intro R con env1 env2 fd g h1 h2 hw
  obtain ⟨errno, he1⟩ := dhcpcd_try_open_of_fail env1 Controller.init con h1
  have hfst : (dhcpcd_try_open env1 Controller.init con).1 = true := by
    rw [he1]
    exact tryOpenFail_true _ _
  obtain ⟨f1, f2, f3, f4⟩ := tryOpenFail_fields
    { Controller.init with phases := Controller.init.phases ++ [Phase.OPENING] } errno
  rw [← he1] at f1 f2 f3 f4
  have hwatch := dhcpcd_watch_empty env2.watchEnv g fd con hw
  have m1 : (mainOpen R env1 Controller.init con).watches = [] := by
    simp only [mainOpen, hfst, if_true]
    exact f1
  have m2 : (mainOpen R env1 Controller.init con).timers = [{ interval := R, data := con }] := by
    simp only [mainOpen, hfst, if_true, f2]
    rfl
  have m3 : (mainOpen R env1 Controller.init con).armed = 1 := by
    simp only [mainOpen, hfst, if_true, f3]
    rfl
  have m4 : (mainOpen R env1 Controller.init con).phases
      = [Phase.CLOSED, Phase.OPENING, Phase.CLOSED] := by
    simp only [mainOpen, hfst, if_true, f4]
    rfl
  have e2 : dhcpcd_try_open env2 (mainOpen R env1 Controller.init con) con
      = (false, { mainOpen R env1 Controller.init con with
          watches := [{ ref := con, fd := fd, eventid := env2.watchEnv.eventid, gio := g }],
          wpa_starts := (mainOpen R env1 Controller.init con).wpa_starts + 1,
          phases := [Phase.CLOSED, Phase.OPENING, Phase.CLOSED, Phase.OPENING,
            Phase.WATCHING] }) := by
    rw [dhcpcd_try_open_of_opened env2 _ con fd h2]
    simp only [tryOpenWatch, m1, m4, hwatch]
    rfl
  have hfire : timerFire env2 (mainOpen R env1 Controller.init con)
      = { mainOpen R env1 Controller.init con with
          watches := [{ ref := con, fd := fd, eventid := env2.watchEnv.eventid, gio := g }],
          wpa_starts := (mainOpen R env1 Controller.init con).wpa_starts + 1,
          timers := [],
          phases := [Phase.CLOSED, Phase.OPENING, Phase.CLOSED, Phase.OPENING,
            Phase.WATCHING] } := by
    unfold timerFire
    rw [m2]
    simp only [e2]
    rfl
  refine ⟨hfst, f1, m2, m3, by rw [e2], by rw [hfire], by rw [hfire], ?_, by rw [hfire]⟩
  rw [hfire]
  exact m3

/-- C10 at a first attempt failing with `ENOENT` and a second attempt opening
descriptor 9 unprivileged after `EACCES`. -/
theorem dhcpcd_try_open_retry_witness :
    (timerFire ⟨⟨-1, 13⟩, ⟨9, 0⟩, ⟨some 4, 4, true⟩⟩
      (mainOpen 100 ⟨⟨-1, 2⟩, ⟨-1, 0⟩, ⟨some 1, 1, true⟩⟩ Controller.init 77)).phases
      = [Phase.CLOSED, Phase.OPENING, Phase.CLOSED, Phase.OPENING, Phase.WATCHING] ∧
    (timerFire ⟨⟨-1, 13⟩, ⟨9, 0⟩, ⟨some 4, 4, true⟩⟩
      (mainOpen 100 ⟨⟨-1, 2⟩, ⟨-1, 0⟩, ⟨some 1, 1, true⟩⟩ Controller.init 77)).watches
      = [{ ref := 77, fd := 9, eventid := 4, gio := 4 }] ∧
    (timerFire ⟨⟨-1, 13⟩, ⟨9, 0⟩, ⟨some 4, 4, true⟩⟩
      (mainOpen 100 ⟨⟨-1, 2⟩, ⟨-1, 0⟩, ⟨some 1, 1, true⟩⟩ Controller.init 77)).armed = 1 :=
  have h := dhcpcd_try_open_retry.1 100 77 ⟨⟨-1, 2⟩, ⟨-1, 0⟩, ⟨some 1, 1, true⟩⟩
    ⟨⟨-1, 13⟩, ⟨9, 0⟩, ⟨some 4, 4, true⟩⟩ 9 4 (by decide) (by decide) ⟨rfl, by decide, rfl⟩
  ⟨h.2.2.2.2.2.2.2.2, h.2.2.2.2.2.1, h.2.2.2.2.2.2.2.1⟩

/-! ## Which record survives the dedup loop -/

theorem unlinked_refl (P : DHCPCD_WI_SCAN → Prop) (l : List DHCPCD_WI_SCAN) :
    Unlinked P l l := by
  induction l with
  | nil => exact Unlinked.done
  | cons a l ih => exact Unlinked.keep a l l ih

theorem unlinked_mem (P : DHCPCD_WI_SCAN → Prop) (l1 l2 : List DHCPCD_WI_SCAN)
    (h : Unlinked P l1 l2) : ∀ x ∈ l1, x ∈ l2 ∨ P x := by
  induction h with
  | done => simp
  | keep a l1 l2 _ ih =>
    intro x hx
    rcases List.mem_cons.1 hx with rfl | hx
    · exact Or.inl (List.mem_cons_self _ _)
    · rcases ih x hx with h1 | h1
      · exact Or.inl (List.mem_cons_of_mem _ h1)
      · exact Or.inr h1
  | unlink a l1 l2 ha _ ih =>
    intro x hx
    rcases List.mem_cons.1 hx with rfl | hx
    · exact Or.inr ha
    · exact ih x hx

theorem firstStrongest_cons (s : String) (L : List DHCPCD_WI_SCAN) (a r : DHCPCD_WI_SCAN)
    (h : FirstStrongest s L r) (ha : a.ssid = s → a.strength < r.strength) :
    FirstStrongest s (a :: L) r := by
  obtain ⟨pre, post, hL, hs, hpre, hpost⟩ := h
  refine ⟨a :: pre, post, by rw [hL, List.cons_append], hs, ?_, hpost⟩
  intro x hx
  rcases List.mem_cons.1 hx with rfl | hx
  · exact ha
  · exact hpre x hx

theorem firstStrongest_max (s : String) (L : List DHCPCD_WI_SCAN) (r : DHCPCD_WI_SCAN)
    (h : FirstStrongest s L r) : ∀ x ∈ L, x.ssid = s → x.strength ≤ r.strength := by
  obtain ⟨pre, post, hL, hs, hpre, hpost⟩ := h
  intro x hx hxs
  rw [hL, List.mem_append, List.mem_cons] at hx
  rcases hx with hx | rfl | hx
  · exact le_of_lt (hpre x hx hxs)
  · exact le_refl _
  · exact hpost x hx hxs

/-- Putting back unlinked nodes that are strictly weaker than `r` whenever they
have ssid `s` keeps `r` the first strongest record with ssid `s`. -/
theorem firstStrongest_of_unlinked (P : DHCPCD_WI_SCAN → Prop) (s : String)
    (l1 l2 : List DHCPCD_WI_SCAN) (r : DHCPCD_WI_SCAN) (hu : Unlinked P l1 l2)
    (hP : ∀ x, P x → x.ssid = s → x.strength < r.strength)
    (h : FirstStrongest s l2 r) : FirstStrongest s l1 r := by
  induction hu with
  | done => exact h
  | keep a l1 l2 hu ih =>
    obtain ⟨pre, post, hL, hs, hpre, hpost⟩ := h
    cases pre with
    | nil =>
      simp only [List.nil_append, List.cons.injEq] at hL
      obtain ⟨rfl, rfl⟩ := hL
      refine ⟨[], l1, rfl, hs, by simp, ?_⟩
      intro x hx hxs
      rcases unlinked_mem P l1 _ hu x hx with h1 | h1
      · exact hpost x h1 hxs
      · exact le_of_lt (hP x h1 hxs)
    | cons b pre2 =>
      simp only [List.cons_append, List.cons.injEq] at hL
      obtain ⟨rfl, hL2⟩ := hL
      have h2 : FirstStrongest s l2 r :=
        ⟨pre2, post, hL2, hs, fun x hx => hpre x (List.mem_cons_of_mem _ hx), hpost⟩
      exact firstStrongest_cons s l1 a r (ih h2) (hpre a (List.mem_cons_self _ _))
  | unlink a l1 l2 ha hu ih =>
    exact firstStrongest_cons s l1 a r (ih h) (hP a ha)

/-- The first strongest record with a given ssid is one record, at one place. -/
theorem firstStrongest_unique (s : String) (L : List DHCPCD_WI_SCAN) (r1 r2 : DHCPCD_WI_SCAN)
    (h1 : FirstStrongest s L r1) (h2 : FirstStrongest s L r2) : r1 = r2 := by
  obtain ⟨pre1, post1, hL1, hs1, hpre1, hpost1⟩ := h1
  obtain ⟨pre2, post2, hL2, hs2, hpre2, hpost2⟩ := h2
  induction pre1 generalizing L pre2 with
  | nil =>
    cases pre2 with
    | nil =>
      rw [hL1] at hL2
      simp only [List.nil_append, List.cons.injEq] at hL2
      exact hL2.1
    | cons b pre2 =>
      rw [hL1] at hL2
      simp only [List.nil_append, List.cons_append, List.cons.injEq] at hL2
      obtain ⟨rfl, hpost⟩ := hL2
      have hlt := hpre2 r1 (List.mem_cons_self _ _) hs1
      have hle := hpost1 r2 (by rw [hpost]; simp) hs2
      omega
  | cons a pre1 ih =>
    cases pre2 with
    | nil =>
      rw [hL1] at hL2
      simp only [List.nil_append, List.cons_append, List.cons.injEq] at hL2
      obtain ⟨ha, hpost⟩ := hL2
      have hlt := hpre1 a (List.mem_cons_self _ _) (by rw [ha]; exact hs2)
      have hle := hpost2 r1 (by rw [← hpost]; simp) hs1
      rw [ha] at hlt
      omega
    | cons b pre2 =>
      rw [hL1] at hL2
      simp only [List.cons_append, List.cons.injEq] at hL2
      exact ih (pre1 ++ r1 :: post1) rfl (fun x hx => hpre1 x (List.mem_cons_of_mem _ hx)) pre2
        hL2.2 (fun x hx => hpre2 x (List.mem_cons_of_mem _ hx))

/-- The inner loop only unlinks nodes that have `sc`'s ssid and are not
stronger than `sc`. -/
theorem scanInner_unlinked (sc : DHCPCD_WI_SCAN) (rest : List DHCPCD_WI_SCAN) :
    Unlinked (fun x => x.ssid = sc.ssid ∧ x.strength ≤ sc.strength) rest
      (scanInner sc rest).2 := by
  induction rest with
  | nil => exact Unlinked.done
  | cons sc2 rest ih =>
    unfold scanInner
    by_cases hc : g_strcmp0 sc.ssid sc2.ssid = 0
    · have heq := (g_strcmp0_eq_zero _ _).1 hc
      by_cases hlt : sc.strength < sc2.strength
      · simp only [hc, hlt, if_true]
        exact unlinked_refl _ _
      · simp only [hc, hlt, if_true, if_false]
        exact Unlinked.unlink sc2 rest _ ⟨heq.symm, by omega⟩ ih
    · simp only [hc, if_false]
      exact Unlinked.keep sc2 rest _ ih

/-- For every non-empty ssid of the list, the dedup loop keeps the first
strongest record with that ssid. -/
theorem processLoop_first_strongest (fuel : Nat) (l out : List DHCPCD_WI_SCAN)
    (he : processLoop fuel l = some out) (s : String) (hs : s ≠ "")
    (hx : ∃ x ∈ l, x.ssid = s) : ∃ r ∈ out, FirstStrongest s l r := by
  induction fuel generalizing l out with
  | zero => simp [processLoop] at he
  | succ fuel ih =>
    cases l with
    | nil => simp at hx
    | cons sc rest =>
      obtain ⟨x, hxl, hxs⟩ := hx
      have hun := scanInner_unlinked sc rest
      unfold processLoop at he
      by_cases hz : strlen sc.ssid = 0
      · have hempty := (strlen_eq_zero _).1 hz
        rw [if_pos hz] at he
        have hxr : x ∈ rest := by
          rcases List.mem_cons.1 hxl with rfl | h
          · exact absurd (hxs.symm.trans hempty) hs
          · exact h
        obtain ⟨r, hr, hfs⟩ := ih rest out he ⟨x, hxr, hxs⟩
        exact ⟨r, hr, firstStrongest_cons s rest sc r hfs
          (fun h => absurd (h.symm.trans hempty) hs)⟩
      · rw [if_neg hz] at he
        cases hdel : (scanInner sc rest).1 with
        | true =>
          rw [hdel, if_pos rfl] at he
          obtain ⟨⟨y, hy, hys, hyst⟩, _⟩ := scanInner_delete sc rest hdel
          have hx2 : ∃ z ∈ (scanInner sc rest).2, z.ssid = s := by
            rcases List.mem_cons.1 hxl with rfl | h
            · exact ⟨y, hy, hys.trans hxs⟩
            · rcases unlinked_mem _ _ _ hun x h with h1 | h1
              · exact ⟨x, h1, hxs⟩
              · exact ⟨y, hy, hys.trans (h1.1.symm.trans hxs)⟩
          obtain ⟨r, hr, hfs⟩ := ih _ out he hx2
          have hweak : ∀ z : DHCPCD_WI_SCAN, z.ssid = sc.ssid → z.strength ≤ sc.strength →
              z.ssid = s → z.strength < r.strength := by
            intro z hz1 hz2 hz3
            have := firstStrongest_max s _ r hfs y hy (hys.trans (hz1.symm.trans hz3))
            omega
          have hrest : FirstStrongest s rest r :=
            firstStrongest_of_unlinked _ s rest _ r hun (fun z hz => hweak z hz.1 hz.2) hfs
          exact ⟨r, hr, firstStrongest_cons s rest sc r hrest (hweak sc rfl (le_refl _))⟩
        | false =>
          rw [hdel] at he
          simp only [Bool.false_eq_true, if_false, Option.map_eq_some'] at he
          obtain ⟨out2, he2, rfl⟩ := he
          obtain ⟨_, hmax⟩ := scanInner_keep sc rest hdel
          by_cases hsc : sc.ssid = s
          · exact ⟨sc, List.mem_cons_self _ _, [], rest, rfl, hsc, by simp,
              fun z hz hzs => hmax z hz (hzs.trans hsc.symm)⟩
          · have hxr : x ∈ rest := by
              rcases List.mem_cons.1 hxl with rfl | h
              · exact absurd hxs hsc
              · exact h
            have hx2 : ∃ z ∈ (scanInner sc rest).2, z.ssid = s := by
              rcases unlinked_mem _ _ _ hun x hxr with h1 | h1
              · exact ⟨x, h1, hxs⟩
              · exact absurd (h1.1.symm.trans hxs) hsc
            obtain ⟨r, hr, hfs⟩ := ih _ out2 he2 hx2
            have hrest : FirstStrongest s rest r :=
              firstStrongest_of_unlinked _ s rest _ r hun
                (fun z hz hzs => absurd (hz.1.symm.trans hzs) hsc) hfs
            exact ⟨r, List.mem_cons_of_mem _ hr,
              firstStrongest_cons s rest sc r hrest (fun h => absurd h hsc)⟩

theorem filter_ssid_eq_singleton (l : List DHCPCD_WI_SCAN) (r : DHCPCD_WI_SCAN)
    (hnd : (l.map (fun x => x.ssid)).Nodup) (hr : r ∈ l) :
    l.filter (fun x => decide (x.ssid = r.ssid)) = [r] := by
  induction l with
  | nil => simp at hr
  | cons a l ih =>
    rw [List.map_cons, List.nodup_cons] at hnd
    rcases List.mem_cons.1 hr with rfl | hr
    · have hnone : l.filter (fun x => decide (x.ssid = r.ssid)) = [] := by
        rw [List.filter_eq_nil_iff]
        intro x hx hxs
        exact hnd.1 (List.mem_map.2 ⟨x, hx, by simpa using hxs⟩)
      simp [List.filter_cons, hnone]
    · have hne : ¬ a.ssid = r.ssid := fun h =>
        hnd.1 (List.mem_map.2 ⟨r, hr, h.symm⟩)
      simp [List.filter_cons, hne, ih hnd.2 hr]

/-! ## Claim about the surviving record -/

/-- C11: for every input list `L`, `process_scans (L)` returns a list `out`
whose records are all records of `L`, and for every non-empty ssid `s` that
occurs in `L` the records of `out` with ssid `s` are exactly one record, the
first record of `L`, in input order, whose strength is maximal among the
records of `L` with ssid `s`: every earlier record with ssid `s` is strictly
weaker, every later one is at most as strong.  On a tie the first record is
kept, with its bssid: A/b1/10, A/b2/10, A/b3/7 yields A/b1/10. -/
theorem process_scans_keeps_first_strongest :
    (∀ L : List DHCPCD_WI_SCAN, ∃ out, process_scans L = some out ∧
      (∀ r ∈ out, r ∈ L) ∧
      ∀ s : String, s ≠ "" → (∃ x ∈ L, x.ssid = s) →
        ∃ r, out.filter (fun x => decide (x.ssid = s)) = [r] ∧ FirstStrongest s L r) ∧
    process_scans [⟨"A", "b1", 10⟩, ⟨"A", "b2", 10⟩, ⟨"A", "b3", 7⟩]
      = some [⟨"A", "b1", 10⟩] := by
  refine ⟨?_, by decide⟩
  intro L
  obtain ⟨mid, he, hsub, _, hnd, _⟩ := processLoop_spec (L.length + 1) L (by omega)
  obtain ⟨out, hsort, hperm, _⟩ := listsort_spec mid
  refine ⟨out, by simp [process_scans, he, hsort],
    fun r hr => hsub.subset (hperm.subset hr), ?_⟩
  intro s hs hx
  obtain ⟨r, hr, hfs⟩ := processLoop_first_strongest _ L mid he s hs hx
  refine ⟨r, ?_, hfs⟩
  have hrs : r.ssid = s := by
    obtain ⟨_, _, _, h, _⟩ := hfs
    exact h
  have hmid := filter_ssid_eq_singleton mid r hnd hr
  rw [hrs] at hmid
  have hp := hperm.filter (fun x => decide (x.ssid = s))
  rw [hmid] at hp
  exact List.perm_singleton.1 hp

/-- C11 at the list A/b1/5, B/b0/1, A/b2/3, A/b3/9, A/b4/9, A/b5/6 and the
ssid A. -/
theorem process_scans_keeps_first_strongest_witness :
    ∃ out, process_scans [⟨"A", "b1", 5⟩, ⟨"B", "b0", 1⟩, ⟨"A", "b2", 3⟩, ⟨"A", "b3", 9⟩,
        ⟨"A", "b4", 9⟩, ⟨"A", "b5", 6⟩] = some out ∧
      ∃ r, out.filter (fun x => decide (x.ssid = "A")) = [r] ∧
        FirstStrongest "A" [⟨"A", "b1", 5⟩, ⟨"B", "b0", 1⟩, ⟨"A", "b2", 3⟩, ⟨"A", "b3", 9⟩,
          ⟨"A", "b4", 9⟩, ⟨"A", "b5", 6⟩] r :=
  (process_scans_keeps_first_strongest.1 _).imp
    (fun _ h => ⟨h.1, h.2.2 "A" (by decide) ⟨⟨"A", "b1", 5⟩, by decide, rfl⟩⟩)

end DhcpcdGtk
